import Mathlib

/-!
# Verification of the pyaudacity noise-reduction sample layer

Shallow embedding of the sample-storage and read/append layer of the
pyaudacity_noisered repository (WaveTrack.cpp, WaveClip.cpp, Sequence.cpp,
SimpleBlockFile.cpp, BlockFile.cpp, SilentBlockFile.cpp) together with
spec-modelled fragments of the noise-reduction engine whose implementation
file (NoiseReduction.cpp) is not among the sources.

Doubles are modelled as exact rationals; sampleCount (a signed 64-bit
position) is modelled as an unbounded integer; sample buffers are modelled
as index-to-value maps or lists of rationals.
-/

namespace PyAudacityNR

/-- WaveTrack::TimeToLongSamples (WaveTrack.cpp):
`sampleCount(floor(t0 * mRate + 0.5))`, with double arithmetic modelled
exactly over the rationals.  The track rate `mRate` is a double. -/
def timeToLongSamples (rate : ℚ) (t0 : ℚ) : ℤ :=
  Int.floor (t0 * rate + 1/2)

/-- WaveTrack::LongSamplesToTime (WaveTrack.cpp): `pos.as_double() / mRate`. -/
def longSamplesToTime (rate : ℚ) (pos : ℤ) : ℚ :=
  (pos : ℚ) / rate

/-- The conversion formula as written in the spec: `floor(t * rate + 0.5)`. -/
def specTimeToSampleIndex (rate : ℚ) (t : ℚ) : ℤ :=
  Int.floor (t * rate + 1/2)

/-- A SeqBlock (Sequence.h): a block file and the sequence-relative sample
position where it starts.  The block file is represented by its stored
sample contents `f`; `f->GetLength()` is `f.length` (SimpleBlockFile
stores the sample buffer it was built from and ReadData returns it, see
blockReadData). -/
structure SeqBlock where
  f : List ℚ
  start : ℤ

/-- A Sequence (Sequence.h / Sequence.cpp): the block array, the total
sample count, and the min/max samples per block fixed at construction. -/
structure Seq where
  mBlock : List SeqBlock
  mNumSamples : ℤ
  mMinSamples : ℕ
  mMaxSamples : ℕ

/-- The sample stream a Sequence stores: its block file contents in
order. -/
def seqContent (s : Seq) : List ℚ :=
  (s.mBlock.map (fun blk => blk.f)).flatten

/-- The total stored length of a block array. -/
def totalLen (blocks : List SeqBlock) : ℕ :=
  ((blocks.map (fun blk => blk.f)).flatten).length

/-- The stored length of the first i blocks of a block array. -/
def cumLen (blocks : List SeqBlock) (i : ℕ) : ℕ :=
  totalLen (blocks.take i)

/-- The sequence-layout invariant walked by Sequence::ConsistencyCheck:
each block starts at the running sample position, which advances by the
block length; block files are nonempty, as Sequence::FindBlock asserts
(`assert(block.f->GetLength() > 0)`). -/
def ChainFrom : ℤ → List SeqBlock → Prop
  | _, [] => True
  | pos, blk :: rest =>
      blk.start = pos ∧ 1 ≤ blk.f.length ∧ ChainFrom (pos + blk.f.length) rest

/-- Full consistency of a Sequence, per Sequence::ConsistencyCheck: the
chain starts at sample position 0 and the final running position equals
mNumSamples (equivalently, mNumSamples is the stored content length). -/
def SeqConsistent (s : Seq) : Prop :=
  ChainFrom 0 s.mBlock ∧ s.mNumSamples = ((seqContent s).length : ℤ)

/-- SimpleBlockFile::ReadData (SimpleBlockFile.cpp lines 250-275): deliver
`framesRead = min(len, max(start, length) - start)` stored samples from
position `start` and zero-fill the missing tail (the mayThrow = false
path). -/
def blockReadData (f : List ℚ) (start len : ℕ) : List ℚ :=
  (f.drop start).take (min len (max start f.length - start)) ++
    List.replicate (len - min len (max start f.length - start)) 0

/-- The guess computation of Sequence::FindBlock (Track.h, Sequence.cpp
segment): `guess = min(hi - 1, lo + size_t(frac * (hi - lo)))` with
`frac = (pos - loSamples) / (hiSamples - loSamples)`; doubles are modelled
as exact rationals and the size_t conversion as floor. -/
def fbGuess (pos loSamples hiSamples : ℤ) (lo hi : ℕ) : ℕ :=
  min (hi - 1)
    (lo + (Int.floor (((pos - loSamples : ℤ) : ℚ) /
      ((hiSamples - loSamples : ℤ) : ℚ) * (((hi - lo : ℕ) : ℤ) : ℚ))).toNat)

/-- The search loop of Sequence::FindBlock (Track.h, Sequence.cpp segment,
lines 856-905): narrow [lo, hi) with sample span [loSamples, hiSamples)
around the guessed block until the block containing pos is found.  Fuel
bounds the rounds; hi - lo shrinks every round, so any fuel at least the
block count suffices.  Out-of-range block access (impossible for a
consistent sequence) returns the guess. -/
def findBlockGo (blocks : List SeqBlock) (pos : ℤ) :
    ℕ → ℕ → ℕ → ℤ → ℤ → ℕ
  | 0, lo, _, _, _ => lo
  | fuel + 1, lo, hi, loSamples, hiSamples =>
      match blocks.get? (fbGuess pos loSamples hiSamples lo hi) with
      | none => fbGuess pos loSamples hiSamples lo hi
      | some block =>
          if pos < block.start then
            findBlockGo blocks pos fuel lo (fbGuess pos loSamples hiSamples lo hi)
              loSamples block.start
          else if pos < block.start + (block.f.length : ℤ) then
            fbGuess pos loSamples hiSamples lo hi
          else
            findBlockGo blocks pos fuel (fbGuess pos loSamples hiSamples lo hi + 1)
              hi (block.start + (block.f.length : ℤ)) hiSamples

/-- Sequence::FindBlock (Track.h, Sequence.cpp segment): position 0 is in
block 0; otherwise run the search over the whole block array. -/
def findBlock (s : Seq) (pos : ℤ) : ℕ :=
  if pos = 0 then 0
  else
    findBlockGo s.mBlock pos (s.mBlock.length + 1) 0 s.mBlock.length 0 s.mNumSamples

/-- The block-walking loop of Sequence::Get (Track.h, Sequence.cpp segment,
lines 135-154), returning the samples written to the destination: per
round, read `blen = min(len, block.f->GetLength() - bstart)` samples of
block b from block-relative position `bstart = start - block.start`, then
advance to the next block.  Fuel bounds the rounds (for a consistent
sequence each round delivers at least one sample, so any fuel exceeding
len suffices); out-of-range block access (impossible for a consistent
sequence) stops the walk. -/
def seqGetGo (blocks : List SeqBlock) : ℕ → ℕ → ℤ → ℕ → List ℚ
  | _, _, _, 0 => []
  | 0, _, _, _ + 1 => []
  | fuel + 1, b, start, n + 1 =>
      match blocks.get? b with
      | none => []
      | some block =>
          blockReadData block.f (start - block.start).toNat
              (min (n + 1) (block.f.length - (start - block.start).toNat)) ++
            seqGetGo blocks fuel (b + 1)
              (start + (min (n + 1) (block.f.length - (start - block.start).toNat) : ℕ))
              (n + 1 - min (n + 1) (block.f.length - (start - block.start).toNat))

/-- Sequence::Get (Track.h, Sequence.cpp segment, lines 118-133) with
mayThrow = false, returning the samples written to the destination and the
returned flag: a read starting exactly at mNumSamples touches nothing and
succeeds only when len = 0; an out-of-bounds read zero-fills the
destination and fails; otherwise the block walk starts at
FindBlock(start). -/
def seqGet (s : Seq) (start : ℤ) (len : ℕ) : List ℚ × Bool :=
  if start = s.mNumSamples then
    ([], len == 0)
  else if start < 0 ∨ s.mNumSamples < start + (len : ℤ) then
    (List.replicate len 0, false)
  else
    (seqGetGo s.mBlock (len + 1) (findBlock s start) start len, true)

/-- Sequence::GetMaxBlockSize (Track.h, Sequence.cpp segment, line 285). -/
def seqGetMaxBlockSize (s : Seq) : ℕ := s.mMaxSamples

/-- Sequence::GetIdealBlockSize (Track.h, Sequence.cpp segment): returns
mMaxSamples. -/
def seqGetIdealBlockSize (s : Seq) : ℕ := s.mMaxSamples

/-- Sequence::GetIdealAppendLen (Track.h, Sequence.cpp segment, lines
405-417): mMaxSamples when there is no block or the last block is already
at least mMaxSamples long; otherwise the room left in the last block. -/
def seqGetIdealAppendLen (s : Seq) : ℕ :=
  match s.mBlock.getLast? with
  | none => s.mMaxSamples
  | some lastBlock =>
      if s.mMaxSamples ≤ lastBlock.f.length then s.mMaxSamples
      else s.mMaxSamples - lastBlock.f.length

/-- The new-blocks loop of Sequence::Append (Track.h, Sequence.cpp segment,
lines 370-388): cut the remaining input into blocks of
`addedLen = min(GetIdealBlockSize(), len)` samples starting at the running
sample position.  Fuel bounds the rounds; for maxS at least 1 each round
consumes at least one sample, so any fuel exceeding the input length
suffices. -/
def appendNewBlocks (maxS : ℕ) : ℕ → List ℚ → ℤ → List SeqBlock
  | 0, _, _ => []
  | fuel + 1, input, startPos =>
      match input with
      | [] => []
      | x :: rest =>
          ⟨(x :: rest).take (min maxS (x :: rest).length), startPos⟩ ::
            appendNewBlocks maxS fuel
              ((x :: rest).drop (min maxS (x :: rest).length))
              (startPos + (min maxS (x :: rest).length : ℕ))

/-- Sequence::Append (Track.h, Sequence.cpp segment, lines 317-399) for
data already in the sequence sample format (the only way the WaveClip
append path calls it): nothing happens for len = 0; a last block shorter
than mMinSamples is replaced by its enlargement with the first
`addLen = min(mMaxSamples - length, len)` input samples; the remaining
input becomes new blocks of ideal size; the commit
(AppendBlocksIfConsistent) replaces the last block when it was enlarged,
adds the new blocks and sets the new sample count. -/
def seqAppend (s : Seq) (input : List ℚ) : Seq :=
  match input with
  | [] => s
  | _ :: _ =>
      match s.mBlock.getLast? with
      | some lastBlock =>
          if lastBlock.f.length < s.mMinSamples then
            { s with
                mBlock := s.mBlock.dropLast ++
                  (⟨lastBlock.f ++
                      input.take (min (s.mMaxSamples - lastBlock.f.length) input.length),
                    lastBlock.start⟩ : SeqBlock) ::
                    appendNewBlocks (seqGetIdealBlockSize s) (input.length + 1)
                      (input.drop (min (s.mMaxSamples - lastBlock.f.length) input.length))
                      (s.mNumSamples +
                        (min (s.mMaxSamples - lastBlock.f.length) input.length : ℕ)),
                mNumSamples := s.mNumSamples + input.length }
          else
            { s with
                mBlock := s.mBlock ++
                  appendNewBlocks (seqGetIdealBlockSize s) (input.length + 1)
                    input s.mNumSamples,
                mNumSamples := s.mNumSamples + input.length }
      | none =>
          { s with
              mBlock := s.mBlock ++
                appendNewBlocks (seqGetIdealBlockSize s) (input.length + 1)
                  input s.mNumSamples,
              mNumSamples := s.mNumSamples + input.length }

/-- A WaveClip (WaveClip.h / WaveClip.cpp).  `offset` is `mOffset`
(double), `rate` is `mRate` (int), `seq` is `mSequence`,
`appendBufferLen` is `mAppendBufferLen`, `env` is the per-clip amplitude
envelope `mEnvelope`, modelled as a time-to-value map. -/
structure WClip where
  offset : ℚ
  rate : ℤ
  seq : Seq
  appendBufferLen : ℕ
  env : ℚ → ℚ

/-- WaveClip::GetNumSamples: `mSequence->GetNumSamples()`. -/
def GetNumSamples (c : WClip) : ℤ :=
  c.seq.mNumSamples

/-- WaveClip::GetStartSample: `sampleCount(floor(mOffset * mRate + 0.5))`. -/
def GetStartSample (c : WClip) : ℤ :=
  Int.floor (c.offset * (c.rate : ℚ) + 1/2)

/-- WaveClip::GetEndSample: `GetStartSample() + mSequence->GetNumSamples()`. -/
def GetEndSample (c : WClip) : ℤ :=
  GetStartSample c + GetNumSamples c

/-- WaveClip::BeforeClip: `ts <= GetStartSample()` where
`ts = floor(t * mRate + 0.5)`. -/
def BeforeClip (c : WClip) (t : ℚ) : Prop :=
  Int.floor (t * (c.rate : ℚ) + 1/2) ≤ GetStartSample c

/-- WaveClip::AfterClip: `ts >= GetEndSample() + mAppendBufferLen`. -/
def AfterClip (c : WClip) (t : ℚ) : Prop :=
  GetEndSample c + (c.appendBufferLen : ℤ) ≤ Int.floor (t * (c.rate : ℚ) + 1/2)

/-- WaveClip::WithinClip:
`ts > GetStartSample() && ts < GetEndSample() + mAppendBufferLen`. -/
def WithinClip (c : WClip) (t : ℚ) : Prop :=
  GetStartSample c < Int.floor (t * (c.rate : ℚ) + 1/2) ∧
  Int.floor (t * (c.rate : ℚ) + 1/2) < GetEndSample c + (c.appendBufferLen : ℤ)

/-- SilentBlockFile (SilentBlockFile.cpp): the constructor sets
`mMin = mMax = mRMS = 0` and records the sample length. -/
structure SilentBlockFile where
  len : ℕ
  min : ℚ
  max : ℚ
  rms : ℚ

/-- SilentBlockFile::SilentBlockFile(size_t sampleLen). -/
def mkSilentBlockFile (sampleLen : ℕ) : SilentBlockFile :=
  { len := sampleLen, min := 0, max := 0, rms := 0 }

/-- SilentBlockFile::ReadData: `ClearSamples(data, format, 0, len); return len;`
the start offset parameter is never consulted.  Returns the written buffer
contents and the returned count. -/
def silentReadData (_start : ℕ) (len : ℕ) : List ℚ × ℕ :=
  (List.replicate len 0, len)

/-- The tail-filling step of BlockFile::CommonReadData (BlockFile.cpp lines
396-400): when the underlying file delivered `delivered` frames but `len`
were requested, the missing tail of the destination is zero-filled
(`ClearSamples(data, format, framesRead, len - framesRead)`). -/
def commonReadDataFill (delivered : List ℚ) (len : ℕ) : List ℚ :=
  if delivered.length < len then
    delivered ++ List.replicate (len - delivered.length) 0
  else delivered

/-- The fill modes of WaveTrack::Get (fillFormat in WaveTrack.h). -/
inductive FillFormat
  | fillZero
  | fillTwo
deriving DecidableEq

/-- The value the cleared region receives: zeros for fillZero, the constant
2.0f for fillTwo (WaveTrack.cpp lines 160-172). -/
def fillValue : FillFormat → ℚ
  | FillFormat.fillZero => 0
  | FillFormat.fillTwo => 2

/-- One iteration of the copy loop of WaveTrack::Get (WaveTrack.cpp lines
175-209), acting on the destination buffer viewed as an index-to-value map.
The outer guard is `clipEnd > start && clipStart < start + len`; the inner
split is on the sign of `startDelta = clipStart - start`.  When
`startDelta < 0` the code sets `inclipDelta = -startDelta`, subtracts it
from `samplesToCopy = min(start + len - clipStart, clip->GetNumSamples())`
and copies to buffer offset 0 from clip offset inclipDelta; otherwise it
copies to buffer offset startDelta from clip offset 0.  The copy itself is
WaveClip::GetSamples, i.e. Sequence::Get of the clip sequence, whose
result buffer lands in the window. -/
def clipCopy (start : ℤ) (len : ℕ) (c : WClip) (buf : ℕ → ℚ) : ℕ → ℚ :=
  fun i =>
    if start < GetEndSample c ∧ GetStartSample c < start + (len : ℤ) then
      if GetStartSample c - start < 0 then
        if (i : ℤ) < min (start + (len : ℤ) - GetStartSample c) (GetNumSamples c) -
            (start - GetStartSample c) then
          ((seqGet c.seq (start - GetStartSample c)
              (min (start + (len : ℤ) - GetStartSample c) (GetNumSamples c) -
                (start - GetStartSample c)).toNat).1).getD i 0
        else buf i
      else
        if (GetStartSample c - start).toNat ≤ i ∧
            (i : ℤ) < (GetStartSample c - start) +
              min (start + (len : ℤ) - GetStartSample c) (GetNumSamples c) then
          ((seqGet c.seq 0
              (min (start + (len : ℤ) - GetStartSample c) (GetNumSamples c)).toNat).1).getD
            (i - (GetStartSample c - start).toNat) 0
        else buf i
    else buf i

/-- WaveTrack::Get (WaveTrack.cpp lines 145-213).  `junk` models the
uninitialized contents of the caller's buffer: it is kept only when the
clearing pass is skipped (the request lies entirely within one clip).
Then every clip overlapping the request copies its samples into the
buffer, in clip-list order. -/
def trackGet (clips : List WClip) (fill : FillFormat) (start : ℤ) (len : ℕ)
    (junk : ℕ → ℚ) : ℕ → ℚ :=
  let doClear :=
    ¬ ∃ c ∈ clips, GetStartSample c ≤ start ∧ start + (len : ℤ) ≤ GetEndSample c
  let buf0 : ℕ → ℚ := if doClear then (fun _ => fillValue fill) else junk
  clips.foldl (fun b c => clipCopy start len c b) buf0

/-- Sample position `p` lies inside clip `c`. -/
def coversPos (c : WClip) (p : ℤ) : Prop :=
  GetStartSample c ≤ p ∧ p < GetEndSample c

instance (c : WClip) (p : ℤ) : Decidable (coversPos c p) :=
  inferInstanceAs (Decidable (GetStartSample c ≤ p ∧ p < GetEndSample c))

/-- Two clips occupy disjoint sample-position ranges. -/
def ClipsDisjoint (a b : WClip) : Prop :=
  ∀ p : ℤ, ¬ (coversPos a p ∧ coversPos b p)

/-- A WaveTrack (WaveTrack.h): gain and pan settings and the clip list.
`mGain` and `mPan` are floats, modelled as rationals. -/
structure WaveTrack where
  gain : ℚ
  pan : ℚ
  clips : List WClip

/-- WaveTrack::Get at the track level: it reads only the clip list; the
gain, pan and envelope fields are never consulted on this path. -/
def waveTrackGet (t : WaveTrack) (fill : FillFormat) (start : ℤ) (len : ℕ)
    (junk : ℕ → ℚ) : ℕ → ℚ :=
  trackGet t.clips fill start len junk

/-- WaveTrack::GetChannelGain (WaveTrack.cpp lines 707-720), the separate
mixing-path computation that combines `mGain` and `mPan`. -/
def GetChannelGain (t : WaveTrack) (channel : ℤ) : ℚ :=
  let left : ℚ := if t.pan < 0 then 1 else if 0 < t.pan then 1 - t.pan else 1
  let right : ℚ := if t.pan < 0 then t.pan + 1 else 1
  if channel % 2 = 0 then left * t.gain else right * t.gain

/-- The append-side state of a WaveClip: `seq` is `mSequence`, `buf` is the
contents of `mAppendBuffer` (length `mAppendBufferLen`), and `blockSize`
is the current value of the local variable
`blockSize = mSequence->GetIdealAppendLen()` in WaveClip::Append. -/
structure ClipBuf where
  seq : Seq
  buf : List ℚ
  blockSize : ℕ

/-- The flush-a-block step at the top of the loop in WaveClip::Append
(WaveClip.cpp lines 209-220): when `mAppendBufferLen >= blockSize`, append
the first blockSize buffered samples to the sequence (in the sequence
format, so without conversion), shift the append buffer down, and re-read
`blockSize = mSequence->GetIdealAppendLen()`. -/
def flushStep (st : ClipBuf) : ClipBuf :=
  if st.blockSize ≤ st.buf.length then
    { seq := seqAppend st.seq (st.buf.take st.blockSize)
      buf := st.buf.drop st.blockSize
      blockSize := seqGetIdealAppendLen (seqAppend st.seq (st.buf.take st.blockSize)) }
  else st

/-- The `for (;;)` loop of WaveClip::Append (WaveClip.cpp lines 208-239):
each iteration first runs the flush-a-block step, then breaks if the
remaining input is empty, else copies
`toCopy = min(len, maxBlockSize - mAppendBufferLen)` input samples
(converted to the sequence format by CopySamples, modelled by `conv`)
into the append buffer and advances.  `maxB` is the entry-read
`maxBlockSize = mSequence->GetMaxBlockSize()` (Sequence::Append never
changes it).  `fuel` bounds the iterations; any fuel exceeding the input
length is enough, because after the flush step the append buffer is
strictly below maxB, so each iteration with nonempty input consumes at
least one input sample. -/
def appendGo (maxB : ℕ) (conv : ℚ → ℚ) : ℕ → List ℚ → ClipBuf → ClipBuf
  | fuel, input, st =>
    match fuel, input, flushStep st with
    | _, [], st1 => st1
    | 0, _ :: _, st1 => st1
    | f + 1, x :: rest, st1 =>
        appendGo maxB conv f
          ((x :: rest).drop (min (x :: rest).length (maxB - st1.buf.length)))
          { st1 with
              buf := st1.buf ++
                ((x :: rest).take (min (x :: rest).length (maxB - st1.buf.length))).map conv }

/-- WaveClip::Append(buffer, format, len, stride = 1): the loop above,
entered with `maxBlockSize = mSequence->GetMaxBlockSize()` and
`blockSize = mSequence->GetIdealAppendLen()`. -/
def waveClipAppend (conv : ℚ → ℚ) (st : ClipBuf) (input : List ℚ) : ClipBuf :=
  appendGo (seqGetMaxBlockSize st.seq) conv (input.length + 1) input
    { st with blockSize := seqGetIdealAppendLen st.seq }

/-- WaveClip::Flush (WaveClip.cpp lines 152-179): if `mAppendBufferLen > 0`,
append the whole append buffer to the sequence (in the sequence format)
and reset `mAppendBufferLen = 0`. -/
def waveClipFlush (st : ClipBuf) : ClipBuf :=
  if 0 < st.buf.length then
    { seq := seqAppend st.seq st.buf, buf := [], blockSize := st.blockSize }
  else st

/-- Modelled from the spec: the per-bin threshold of the sealed Statistics
(NoiseReduction.cpp is not among the sources).  Spec section 4.4:
`threshold(k, sensitivityDb)` returns
`meanLog[k] + (sensitivityDb/10) * stdevLog[k]`. -/
def threshold (meanLog stdevLog : ℕ → ℚ) (k : ℕ) (sensitivityDb : ℚ) : ℚ :=
  meanLog k + sensitivityDb / 10 * stdevLog k

/-- Modelled from the spec: the instantaneous per-bin classification of one
frame (spec section 4.5 step 1): bin `k` is noise when
`magLog k < threshold k sensitivityDb`, where `magLog k = log(|X_k|^2 + eps)`
is the frame's log-magnitude at bin `k`.  This counts the noise bins among
bins `0 .. nBins - 1`. -/
def classifiedNoiseCount (meanLog stdevLog magLog : ℕ → ℚ) (nBins : ℕ)
    (sensitivityDb : ℚ) : ℕ :=
  ((Finset.range nBins).filter
    (fun k => magLog k < threshold meanLog stdevLog k sensitivityDb)).card

/-- Modelled from the spec: the output-emission loop of one reduction pass
(spec sections 4.6-4.7; NoiseReduction.cpp is not among the sources).  The
pass slides over the source at `stepSize`; each processed frame emits the
completed `stepSize`-sample region of the sliding output accumulator,
except that the engine never emits beyond the input length `L` (the spec:
the tail flush "preserves the same total length as the input").  `n` is
the number of emitting frames left; the result is the final output
cursor, i.e. the total number of emitted samples. -/
def reduceEmit (stepSize L : ℕ) : ℕ → ℕ → ℕ
  | 0, pos => pos
  | n + 1, pos => reduceEmit stepSize L n (pos + min stepSize (L - pos))

/-- Modelled from the spec: total output length of a reduction pass over an
input of length `L` (spec section 4.7).  The pass processes
`ceil(L / stepSize)` input frames plus `attackFrames + decayFrames`
zero-valued drain frames; the first `attackFrames` frames are ring-buffer
warm-up and emit nothing, so `ceil(L / stepSize) + decayFrames` frames
emit. -/
def reduceOutputLen (stepSize attackFrames decayFrames L : ℕ) : ℕ :=
  reduceEmit stepSize L ((L + stepSize - 1) / stepSize + decayFrames) 0

/-- A concrete clip at sample positions [0, 2) storing 10, 11 in two
one-sample blocks, used to instantiate the read-path theorems. -/
def clipA : WClip := ⟨0, 1, ⟨[⟨[10], 0⟩, ⟨[11], 1⟩], 2, 1, 2⟩, 0, fun _ => 1⟩

/-- A concrete clip at sample positions [3, 4) storing 5. -/
def clipB : WClip := ⟨3, 1, ⟨[⟨[5], 0⟩], 1, 1, 2⟩, 0, fun _ => 1⟩

/-- A concrete two-clip track with a one-sample gap at position 2. -/
def trackAB : WaveTrack := ⟨1, 0, [clipA, clipB]⟩

/-- A concrete one-clip track storing the samples 1/2 and -1/2. -/
def trackHalf : WaveTrack :=
  ⟨1, 0, [⟨0, 1, ⟨[⟨[1/2, -1/2], 0⟩], 2, 1, 2⟩, 0, fun _ => 1⟩]⟩

/-- C2: WaveTrack::TimeToLongSamples converts a time to a sample index by
exactly the formula floor(t * rate + 0.5) named in the spec, and
WaveClip::GetStartSample converts the clip offset with exactly the same
formula at the clip rate. -/
theorem time_to_samples_is_floor_half_up :
    (∀ rate t : ℚ, timeToLongSamples rate t = specTimeToSampleIndex rate t) ∧
    (∀ c : WClip, GetStartSample c = specTimeToSampleIndex (c.rate : ℚ) c.offset) :=
  ⟨fun _ _ => rfl, fun _ => rfl⟩

/-- C10: for a nonnegative sample count n and a positive integer sample rate,
LongSamplesToTime followed by TimeToLongSamples is the identity under exact
real arithmetic: floor((n / rate) * rate + 0.5) = floor(n + 0.5) = n. -/
theorem samples_time_roundtrip (rate : ℤ) (n : ℕ) (hrate : 0 < rate) :
    timeToLongSamples (rate : ℚ) (longSamplesToTime (rate : ℚ) (n : ℤ)) = (n : ℤ) := by
  unfold timeToLongSamples longSamplesToTime
  have hr : ((rate : ℚ)) ≠ 0 := by
    have : (0 : ℚ) < (rate : ℚ) := by exact_mod_cast hrate
    exact ne_of_gt this
  rw [div_mul_cancel₀ _ hr]
  rw [Int.floor_eq_iff]
  constructor
  · push_cast
    linarith
  · push_cast
    linarith

/-- Witness for C10 at rate 44100 and sample count 7. -/
theorem samples_time_roundtrip_witness :
    timeToLongSamples ((44100 : ℤ) : ℚ) (longSamplesToTime ((44100 : ℤ) : ℚ) ((7 : ℕ) : ℤ)) =
      ((7 : ℕ) : ℤ) :=
  samples_time_roundtrip 44100 7 (by norm_num)

/-- C9: for a WaveClip holding at least one sample and with an empty append
buffer, the predicates BeforeClip, WithinClip and AfterClip are pairwise
mutually exclusive and jointly exhaustive at every time t. -/
theorem clip_position_trichotomy (c : WClip) (t : ℚ)
    (hn : 1 ≤ GetNumSamples c) (hb : c.appendBufferLen = 0) :
    (BeforeClip c t ∨ WithinClip c t ∨ AfterClip c t) ∧
    ¬ (BeforeClip c t ∧ WithinClip c t) ∧
    ¬ (BeforeClip c t ∧ AfterClip c t) ∧
    ¬ (WithinClip c t ∧ AfterClip c t) := by
  unfold BeforeClip WithinClip AfterClip GetEndSample
  rw [hb]
  push_cast
  omega

/-- Witness for C9: a one-sample clip at offset 0, rate 1, empty append
buffer, probed at time t = 0. -/
theorem clip_position_trichotomy_witness :
    (BeforeClip ⟨0, 1, ⟨[⟨[0], 0⟩], 1, 1, 2⟩, 0, fun _ => 1⟩ 0 ∨
      WithinClip ⟨0, 1, ⟨[⟨[0], 0⟩], 1, 1, 2⟩, 0, fun _ => 1⟩ 0 ∨
      AfterClip ⟨0, 1, ⟨[⟨[0], 0⟩], 1, 1, 2⟩, 0, fun _ => 1⟩ 0) ∧
    ¬ (BeforeClip ⟨0, 1, ⟨[⟨[0], 0⟩], 1, 1, 2⟩, 0, fun _ => 1⟩ 0 ∧
      WithinClip ⟨0, 1, ⟨[⟨[0], 0⟩], 1, 1, 2⟩, 0, fun _ => 1⟩ 0) ∧
    ¬ (BeforeClip ⟨0, 1, ⟨[⟨[0], 0⟩], 1, 1, 2⟩, 0, fun _ => 1⟩ 0 ∧
      AfterClip ⟨0, 1, ⟨[⟨[0], 0⟩], 1, 1, 2⟩, 0, fun _ => 1⟩ 0) ∧
    ¬ (WithinClip ⟨0, 1, ⟨[⟨[0], 0⟩], 1, 1, 2⟩, 0, fun _ => 1⟩ 0 ∧
      AfterClip ⟨0, 1, ⟨[⟨[0], 0⟩], 1, 1, 2⟩, 0, fun _ => 1⟩ 0) :=
  clip_position_trichotomy _ 0 (by norm_num [GetNumSamples]) rfl

/-- C8: SilentBlockFile::ReadData writes exactly len zero samples, returns
len, and ignores the start offset; a freshly constructed SilentBlockFile
reports min = max = RMS = 0 and the given length. -/
theorem silent_block_reads_zeros :
    (∀ start1 start2 len : ℕ, silentReadData start1 len = silentReadData start2 len) ∧
    (∀ start len : ℕ,
      (silentReadData start len).1 = List.replicate len 0 ∧
      (silentReadData start len).1.length = len ∧
      (silentReadData start len).2 = len) ∧
    (∀ n : ℕ, (mkSilentBlockFile n).min = 0 ∧ (mkSilentBlockFile n).max = 0 ∧
      (mkSilentBlockFile n).rms = 0 ∧ (mkSilentBlockFile n).len = n) :=
  ⟨fun _ _ _ => rfl,
   fun _ len => ⟨rfl, List.length_replicate len 0, rfl⟩,
   fun _ => ⟨rfl, rfl, rfl, rfl⟩⟩

/-- C7: with nonnegative per-bin standard deviations, the per-bin threshold
meanLog[k] + (sensitivityDb/10) * stdevLog[k] is non-decreasing in
sensitivityDb, and therefore the count of bins classified as noise is
non-decreasing in sensitivityDb. -/
theorem threshold_monotone_in_sensitivity
    (meanLog stdevLog magLog : ℕ → ℚ) (nBins : ℕ) (s1 s2 : ℚ)
    (hstd : ∀ k, 0 ≤ stdevLog k) (h12 : s1 ≤ s2) :
    (∀ k, threshold meanLog stdevLog k s1 ≤ threshold meanLog stdevLog k s2) ∧
    classifiedNoiseCount meanLog stdevLog magLog nBins s1 ≤
      classifiedNoiseCount meanLog stdevLog magLog nBins s2 := by
  have hthr : ∀ k, threshold meanLog stdevLog k s1 ≤ threshold meanLog stdevLog k s2 := by
    intro k
    unfold threshold
    have h10 : s1 / 10 ≤ s2 / 10 := by linarith
    have := mul_le_mul_of_nonneg_right h10 (hstd k)
    linarith
  refine ⟨hthr, ?_⟩
  unfold classifiedNoiseCount
  apply Finset.card_le_card
  apply Finset.monotone_filter_right
  intro k hlt
  exact lt_of_lt_of_le hlt (hthr k)

/-- Witness for C7: flat profile with unit deviations over 3 bins,
sensitivities 0 and 10. -/
theorem threshold_monotone_in_sensitivity_witness :
    (∀ k : ℕ, (0 : ℚ) ≤ (fun _ : ℕ => (1 : ℚ)) k) ∧
    classifiedNoiseCount (fun _ => 0) (fun _ => 1) (fun _ => 0) 3 0 ≤
      classifiedNoiseCount (fun _ => 0) (fun _ => 1) (fun _ => 0) 3 10 :=
  ⟨fun _ => by norm_num,
   (threshold_monotone_in_sensitivity (fun _ => 0) (fun _ => 1) (fun _ => 0) 3 0 10
     (fun _ => by norm_num) (by norm_num)).2⟩

/-- Helper for C6: the emission loop reaches min(L, pos + n * stepSize). -/
theorem reduceEmit_eq_min (S L : ℕ) :
    ∀ n pos, pos ≤ L → reduceEmit S L n pos = min L (pos + n * S) := by
  intro n
  induction n with
  | zero =>
      intro pos h
      simp only [reduceEmit, Nat.zero_mul, Nat.add_zero]
      omega
  | succ n ih =>
      intro pos h
      rw [reduceEmit, ih _ (by omega), Nat.succ_mul]
      omega

/-- C6: every reduction pass emits exactly as many output samples as the
input holds, drain frames included. -/
theorem reduction_preserves_length (S A D L : ℕ) (hS : 0 < S) :
    reduceOutputLen S A D L = L := by
  unfold reduceOutputLen
  rw [reduceEmit_eq_min S L _ 0 (Nat.zero_le L)]
  have h1 : L ≤ (L + S - 1) / S * S := by
    have key := Nat.div_add_mod (L + S - 1) S
    have hm : (L + S - 1) % S < S := Nat.mod_lt _ hS
    have hc : S * ((L + S - 1) / S) = (L + S - 1) / S * S := Nat.mul_comm _ _
    revert key hm hc
    generalize (L + S - 1) / S * S = m
    generalize S * ((L + S - 1) / S) = m2
    generalize (L + S - 1) % S = r
    intro key hm hc
    omega
  have h2 : (L + S - 1) / S * S ≤ ((L + S - 1) / S + D) * S :=
    Nat.mul_le_mul_right _ (Nat.le_add_right _ _)
  rw [Nat.zero_add]
  exact min_eq_left (le_trans h1 h2)

/-- Witness for C6: step 4, attack 3, decay 3, input length 10. -/
theorem reduction_preserves_length_witness :
    reduceOutputLen 4 3 3 10 = 10 :=
  reduction_preserves_length 4 3 3 10 (by norm_num)

theorem totalLen_nil : totalLen [] = 0 := rfl

theorem totalLen_cons (blk : SeqBlock) (rest : List SeqBlock) :
    totalLen (blk :: rest) = blk.f.length + totalLen rest := by
  simp [totalLen]

theorem totalLen_append (l1 l2 : List SeqBlock) :
    totalLen (l1 ++ l2) = totalLen l1 + totalLen l2 := by
  simp [totalLen]

/-- The chain layout splits over concatenation. -/
theorem chainFrom_append (l1 : List SeqBlock) :
    ∀ (o : ℤ) (l2 : List SeqBlock),
      ChainFrom o (l1 ++ l2) ↔
        ChainFrom o l1 ∧ ChainFrom (o + (totalLen l1 : ℤ)) l2 := by
  induction l1 with
  | nil =>
      intro o l2
      simp [ChainFrom, totalLen_nil]
  | cons blk rest ih =>
      intro o l2
      rw [List.cons_append]
      have hoff : o + (totalLen (blk :: rest) : ℤ) =
          (o + blk.f.length) + (totalLen rest : ℤ) := by
        rw [totalLen_cons]
        push_cast
        ring
      constructor
      · rintro ⟨h1, h2, h3⟩
        rw [ih] at h3
        refine ⟨⟨h1, h2, h3.1⟩, ?_⟩
        rw [hoff]
        exact h3.2
      · rintro ⟨⟨h1, h2, h3⟩, h4⟩
        rw [hoff] at h4
        exact ⟨h1, h2, (ih _ _).mpr ⟨h3, h4⟩⟩

theorem cumLen_zero (blocks : List SeqBlock) : cumLen blocks 0 = 0 := rfl

theorem cumLen_succ_cons (blk : SeqBlock) (rest : List SeqBlock) (i : ℕ) :
    cumLen (blk :: rest) (i + 1) = blk.f.length + cumLen rest i := by
  unfold cumLen
  rw [List.take_succ_cons, totalLen_cons]

/-- Block i of a chain starts at the cumulative length of the blocks before
it and is nonempty. -/
theorem chainFrom_get (blocks : List SeqBlock) :
    ∀ (o : ℤ), ChainFrom o blocks →
      ∀ i (h : i < blocks.length),
        (blocks.get ⟨i, h⟩).start = o + (cumLen blocks i : ℤ) ∧
        1 ≤ (blocks.get ⟨i, h⟩).f.length := by
  induction blocks with
  | nil =>
      intro o _ i h
      exact absurd h (by simp)
  | cons blk rest ih =>
      intro o hch i h
      obtain ⟨h1, h2, h3⟩ := hch
      cases i with
      | zero =>
          exact ⟨by simpa [cumLen_zero] using h1, h2⟩
      | succ i =>
          have hi : i < rest.length := by simpa using h
          have hrec := ih (o + blk.f.length) h3 i hi
          refine ⟨?_, hrec.2⟩
          have hg : (blk :: rest).get ⟨i + 1, h⟩ = rest.get ⟨i, hi⟩ := rfl
          rw [hg, hrec.1, cumLen_succ_cons]
          push_cast
          ring

/-- The suffix of a chain from block b is a chain from the cumulative
length of the first b blocks. -/
theorem chainFrom_drop (blocks : List SeqBlock) :
    ∀ (o : ℤ) (b : ℕ), ChainFrom o blocks →
      ChainFrom (o + (cumLen blocks b : ℤ)) (blocks.drop b) := by
  induction blocks with
  | nil =>
      intro o b _
      rw [List.drop_nil]
      exact trivial
  | cons blk rest ih =>
      intro o b hch
      cases b with
      | zero => simpa [cumLen_zero] using hch
      | succ b =>
          obtain ⟨h1, h2, h3⟩ := hch
          have hrec := ih (o + blk.f.length) b h3
          have hoff : o + (cumLen (blk :: rest) (b + 1) : ℤ) =
              o + blk.f.length + (cumLen rest b : ℤ) := by
            rw [cumLen_succ_cons]
            push_cast
            ring
          rw [List.drop_succ_cons, hoff]
          exact hrec

theorem get?_of_drop_cons (blocks : List SeqBlock) (b : ℕ) (blk : SeqBlock)
    (rest : List SeqBlock) (h : blocks.drop b = blk :: rest) :
    blocks.get? b = some blk := by
  have h1 : b < blocks.length := by
    by_contra hc
    rw [List.drop_eq_nil_of_le (by omega)] at h
    exact List.noConfusion h
  rw [List.get?_eq_get h1]
  have h2 := List.drop_eq_get_cons h1 (l := blocks)
  rw [h2] at h
  exact congrArg some (List.head_eq_of_cons_eq h)

theorem drop_succ_of_drop_cons (blocks : List SeqBlock) (b : ℕ) (blk : SeqBlock)
    (rest : List SeqBlock) (h : blocks.drop b = blk :: rest) :
    blocks.drop (b + 1) = rest := by
  have h2 := List.drop_drop 1 b blocks
  rw [h] at h2
  simpa using h2.symm

theorem getD_take_of_lt (l : List ℚ) (n k : ℕ) (h : k < n) :
    (l.take n).getD k 0 = l.getD k 0 := by
  rw [List.getD_eq_getElem?_getD, List.getD_eq_getElem?_getD,
    List.getElem?_take_of_lt h]

theorem getD_drop_add (l : List ℚ) (m k : ℕ) :
    (l.drop m).getD k 0 = l.getD (m + k) 0 := by
  rw [List.getD_eq_getElem?_getD, List.getD_eq_getElem?_getD, List.getElem?_drop]

theorem getD_mem_or_zero (l : List ℚ) (k : ℕ) :
    l.getD k 0 = 0 ∨ l.getD k 0 ∈ l := by
  by_cases h : k < l.length
  · right
    rw [List.getD_eq_getElem?_getD, List.getElem?_eq_getElem h]
    exact List.getElem_mem h
  · left
    exact List.getD_eq_default l 0 (by omega)

theorem blockReadData_in_range (f : List ℚ) (start len : ℕ)
    (h : start + len ≤ f.length) :
    blockReadData f start len = (f.drop start).take len := by
  unfold blockReadData
  have h1 : min len (max start f.length - start) = len := by omega
  rw [h1, Nat.sub_self, List.replicate_zero, List.append_nil]

theorem seqGetGo_zero (blocks : List SeqBlock) (fuel b : ℕ) (start : ℤ) :
    seqGetGo blocks fuel b start 0 = [] := by
  cases fuel <;> rfl

theorem seqGetGo_cons (blocks : List SeqBlock) (f b : ℕ) (start : ℤ) (n : ℕ)
    (blk : SeqBlock) (hget : blocks.get? b = some blk) :
    seqGetGo blocks (f + 1) b start (n + 1) =
      blockReadData blk.f (start - blk.start).toNat
          (min (n + 1) (blk.f.length - (start - blk.start).toNat)) ++
        seqGetGo blocks f (b + 1)
          (start + (min (n + 1) (blk.f.length - (start - blk.start).toNat) : ℕ))
          (n + 1 - min (n + 1) (blk.f.length - (start - blk.start).toNat)) := by
  simp only [seqGetGo]
  rw [hget]

/-- Every sample delivered by the block walk is either zero or one of the
stored samples of the block array. -/
theorem seqGetGo_mem (blocks : List SeqBlock) :
    ∀ (fuel b : ℕ) (start : ℤ) (len : ℕ) (x : ℚ),
      x ∈ seqGetGo blocks fuel b start len →
      x = 0 ∨ x ∈ (blocks.map (fun blk => blk.f)).flatten := by
  intro fuel
  induction fuel with
  | zero =>
      intro b start len x hx
      cases len with
      | zero => rw [seqGetGo_zero] at hx; simp at hx
      | succ n => simp only [seqGetGo] at hx; simp at hx
  | succ f ih =>
      intro b start len x hx
      cases len with
      | zero => rw [seqGetGo_zero] at hx; simp at hx
      | succ n =>
          cases hget : blocks.get? b with
          | none =>
              simp only [seqGetGo, hget] at hx
              simp at hx
          | some blk =>
              rw [seqGetGo_cons blocks f b start n blk hget] at hx
              rcases List.mem_append.mp hx with h1 | h2
              · unfold blockReadData at h1
                rcases List.mem_append.mp h1 with h3 | h4
                · right
                  have hxf : x ∈ blk.f :=
                    List.mem_of_mem_drop (List.mem_of_mem_take h3)
                  exact List.mem_flatten.mpr
                    ⟨blk.f, List.mem_map_of_mem _ (List.get?_mem hget), hxf⟩
                · left
                  exact List.eq_of_mem_replicate h4
              · exact ih _ _ _ _ h2

/-- The block walk of Sequence::Get delivers exactly the stored samples of
the requested range: starting inside block b of a chained suffix, with the
request within the suffix, it returns the stored content slice. -/
theorem seqGetGo_spec (blocks : List SeqBlock) :
    ∀ (fuel b : ℕ) (o start : ℤ) (len : ℕ),
      len < fuel →
      ChainFrom o (blocks.drop b) →
      o ≤ start →
      start + (len : ℤ) ≤ o + (totalLen (blocks.drop b) : ℤ) →
      (0 < len → ∀ blk rest, blocks.drop b = blk :: rest →
        start < o + (blk.f.length : ℤ)) →
      seqGetGo blocks fuel b start len =
        ((((blocks.drop b).map (fun blk => blk.f)).flatten).drop
          (start - o).toNat).take len := by
  intro fuel
  induction fuel with
  | zero =>
      intro b o start len hf
      exact absurd hf (Nat.not_lt_zero _)
  | succ f ih =>
      intro b o start len hf hch hos hbound hhead
      cases len with
      | zero => rw [seqGetGo_zero, List.take_zero]
      | succ n =>
          cases hdrop : blocks.drop b with
          | nil =>
              exfalso
              rw [hdrop, totalLen_nil] at hbound
              push_cast at hbound
              omega
          | cons blk rest =>
              have hget := get?_of_drop_cons blocks b blk rest hdrop
              have hdrop2 := drop_succ_of_drop_cons blocks b blk rest hdrop
              have hhd := hhead (Nat.succ_pos n) blk rest hdrop
              rw [hdrop] at hch hbound
              obtain ⟨hstart, hlen1, hch2⟩ := hch
              rw [totalLen_cons] at hbound
              rw [seqGetGo_cons blocks f b start n blk hget, hstart]
              simp only [List.map_cons, List.flatten_cons]
              have hsd : (start - o).toNat < blk.f.length := by omega
              have hdropapp :
                  ((blk.f ++ (rest.map (fun blk => blk.f)).flatten).drop
                    (start - o).toNat) =
                  blk.f.drop (start - o).toNat ++ (rest.map (fun blk => blk.f)).flatten := by
                rw [List.drop_append_eq_append_drop,
                  Nat.sub_eq_zero_of_le (le_of_lt hsd), List.drop_zero]
              by_cases hfit : n + 1 ≤ blk.f.length - (start - o).toNat
              · have hblen :
                    min (n + 1) (blk.f.length - (start - o).toNat) = n + 1 :=
                  min_eq_left hfit
                rw [hblen, Nat.sub_self, seqGetGo_zero, List.append_nil]
                rw [blockReadData_in_range _ _ _ (by omega)]
                rw [hdropapp, List.take_append_eq_append_take]
                have hlen2 : n + 1 - (blk.f.drop (start - o).toNat).length = 0 := by
                  rw [List.length_drop]
                  omega
                rw [hlen2, List.take_zero, List.append_nil]
              · have hblen :
                    min (n + 1) (blk.f.length - (start - o).toNat) =
                      blk.f.length - (start - o).toNat :=
                  min_eq_right (by omega)
                rw [hblen]
                rw [blockReadData_in_range _ _ _ (by omega)]
                rw [List.take_of_length_le
                  (show (blk.f.drop (start - o).toNat).length ≤
                      blk.f.length - (start - o).toNat by
                    rw [List.length_drop])]
                have hrec := ih (b + 1) (o + (blk.f.length : ℤ))
                  (start + ((blk.f.length - (start - o).toNat : ℕ) : ℤ))
                  (n + 1 - (blk.f.length - (start - o).toNat))
                  (by omega)
                  (by rw [hdrop2]; exact hch2)
                  (by omega)
                  (by
                    rw [hdrop2]
                    push_cast at hbound ⊢
                    omega)
                  (by
                    intro _ blk2 rest2 heq2
                    rw [hdrop2] at heq2
                    rw [heq2] at hch2
                    obtain ⟨hs2, hl2, _⟩ := hch2
                    push_cast
                    omega)
                rw [hrec, hdrop2]
                have hzero :
                    ((start + ((blk.f.length - (start - o).toNat : ℕ) : ℤ)) -
                      (o + (blk.f.length : ℤ))).toNat = 0 := by
                  omega
                rw [hzero, List.drop_zero]
                rw [hdropapp, List.take_append_eq_append_take]
                rw [List.take_of_length_le
                  (show (blk.f.drop (start - o).toNat).length ≤ n + 1 by
                    rw [List.length_drop]
                    omega)]
                rw [List.length_drop]

theorem cumLen_succ (blocks : List SeqBlock) (i : ℕ) (h : i < blocks.length) :
    cumLen blocks (i + 1) = cumLen blocks i + (blocks.get ⟨i, h⟩).f.length := by
  unfold cumLen
  rw [List.take_succ, totalLen_append]
  congr 1
  rw [List.getElem?_eq_getElem h]
  simp [totalLen_cons, totalLen_nil]

theorem cumLen_length (blocks : List SeqBlock) :
    cumLen blocks blocks.length = totalLen blocks := by
  unfold cumLen
  rw [List.take_length]

theorem totalLen_split (blocks : List SeqBlock) (b : ℕ) :
    totalLen blocks = cumLen blocks b + totalLen (blocks.drop b) := by
  conv_lhs => rw [← List.take_append_drop b blocks]
  rw [totalLen_append]
  rfl

/-- Dropping a whole-blocks prefix of the content equals the content of the
remaining blocks. -/
theorem seqContent_drop (s : Seq) (b k : ℕ) :
    (seqContent s).drop (cumLen s.mBlock b + k) =
      (((s.mBlock.drop b).map (fun blk => blk.f)).flatten).drop k := by
  have key : seqContent s =
      ((s.mBlock.take b).map (fun blk => blk.f)).flatten ++
      ((s.mBlock.drop b).map (fun blk => blk.f)).flatten := by
    unfold seqContent
    rw [← List.flatten_append, ← List.map_append, List.take_append_drop]
  rw [key, List.drop_append_eq_append_drop]
  have h1 : ((s.mBlock.take b).map (fun blk => blk.f)).flatten.length =
      cumLen s.mBlock b := rfl
  rw [List.drop_eq_nil_of_le (by rw [h1]; omega), List.nil_append, h1]
  congr 1
  omega

theorem fbGuess_bounds (pos loSamples hiSamples : ℤ) (lo hi : ℕ) (h : lo < hi) :
    lo ≤ fbGuess pos loSamples hiSamples lo hi ∧
    fbGuess pos loSamples hiSamples lo hi < hi := by
  unfold fbGuess
  omega

theorem findBlockGo_succ_some (blocks : List SeqBlock) (pos : ℤ) (f lo hi : ℕ)
    (loS hiS : ℤ) (blk : SeqBlock)
    (hget : blocks.get? (fbGuess pos loS hiS lo hi) = some blk) :
    findBlockGo blocks pos (f + 1) lo hi loS hiS =
      if pos < blk.start then
        findBlockGo blocks pos f lo (fbGuess pos loS hiS lo hi) loS blk.start
      else if pos < blk.start + (blk.f.length : ℤ) then
        fbGuess pos loS hiS lo hi
      else
        findBlockGo blocks pos f (fbGuess pos loS hiS lo hi + 1) hi
          (blk.start + (blk.f.length : ℤ)) hiS := by
  simp only [findBlockGo]
  rw [hget]

/-- The FindBlock search loop returns the block containing pos, whenever
the maintained invariant holds at entry: [lo, hi) is a nonempty index range
whose sample span [loSamples, hiSamples) contains pos. -/
theorem findBlockGo_spec (blocks : List SeqBlock) (pos : ℤ)
    (hch : ChainFrom 0 blocks) :
    ∀ (fuel lo hi : ℕ) (loS hiS : ℤ),
      loS = (cumLen blocks lo : ℤ) → hiS = (cumLen blocks hi : ℤ) →
      lo < hi → hi ≤ blocks.length → hi - lo ≤ fuel →
      loS ≤ pos → pos < hiS →
      ∃ blk, blocks.get? (findBlockGo blocks pos fuel lo hi loS hiS) = some blk ∧
        blk.start ≤ pos ∧ pos < blk.start + (blk.f.length : ℤ) := by
  intro fuel
  induction fuel with
  | zero =>
      intro lo hi loS hiS _ _ hlh _ hfuel _ _
      exact absurd hfuel (by omega)
  | succ f ih =>
      intro lo hi loS hiS hloS hhiS hlh hhle hfuel hlo hhi
      obtain ⟨hg1, hg2⟩ := fbGuess_bounds pos loS hiS lo hi hlh
      have hglt : fbGuess pos loS hiS lo hi < blocks.length := lt_of_lt_of_le hg2 hhle
      have hgget := List.get?_eq_get hglt
      obtain ⟨hgst, hglen⟩ := chainFrom_get blocks 0 hch (fbGuess pos loS hiS lo hi) hglt
      rw [zero_add] at hgst
      rw [findBlockGo_succ_some blocks pos f lo hi loS hiS _ hgget]
      by_cases hc1 : pos < (blocks.get ⟨fbGuess pos loS hiS lo hi, hglt⟩).start
      · rw [if_pos hc1]
        have hgne : lo ≠ fbGuess pos loS hiS lo hi := by
          intro he
          rw [hgst, ← he, ← hloS] at hc1
          omega
        exact ih lo (fbGuess pos loS hiS lo hi) loS
          (blocks.get ⟨fbGuess pos loS hiS lo hi, hglt⟩).start hloS hgst
          (by omega) (le_of_lt hglt) (by omega) hlo hc1
      · rw [if_neg hc1]
        by_cases hc2 : pos < (blocks.get ⟨fbGuess pos loS hiS lo hi, hglt⟩).start +
            ((blocks.get ⟨fbGuess pos loS hiS lo hi, hglt⟩).f.length : ℤ)
        · rw [if_pos hc2]
          exact ⟨blocks.get ⟨fbGuess pos loS hiS lo hi, hglt⟩, hgget, not_lt.mp hc1, hc2⟩
        · rw [if_neg hc2]
          have hcsucc := cumLen_succ blocks (fbGuess pos loS hiS lo hi) hglt
          have harg : (blocks.get ⟨fbGuess pos loS hiS lo hi, hglt⟩).start +
              ((blocks.get ⟨fbGuess pos loS hiS lo hi, hglt⟩).f.length : ℤ) =
              (cumLen blocks (fbGuess pos loS hiS lo hi + 1) : ℤ) := by
            rw [hgst, hcsucc]
            push_cast
            ring
          have hlo2 : fbGuess pos loS hiS lo hi + 1 < hi := by
            by_contra hcon
            have he : fbGuess pos loS hiS lo hi + 1 = hi := by omega
            rw [harg, he, ← hhiS] at hc2
            omega
          exact ih (fbGuess pos loS hiS lo hi + 1) hi _ hiS harg hhiS hlo2 hhle
            (by omega) (by rw [harg] at hc2; omega) hhi

/-- Sequence::Get of a consistent sequence, in bounds: the destination
receives exactly the stored content slice and the call succeeds. -/
theorem seqGet_spec (s : Seq) (hcons : SeqConsistent s) (start : ℤ) (len : ℕ)
    (h0 : 0 ≤ start) (hle : start + (len : ℤ) ≤ s.mNumSamples) :
    (seqGet s start len).1 = ((seqContent s).drop start.toNat).take len ∧
    (seqGet s start len).2 = true := by
  obtain ⟨hch, hnum⟩ := hcons
  have htot : s.mNumSamples = (totalLen s.mBlock : ℤ) := hnum
  unfold seqGet
  by_cases heq : start = s.mNumSamples
  · rw [if_pos heq]
    have hlen0 : len = 0 := by omega
    subst hlen0
    exact ⟨by simp, rfl⟩
  · rw [if_neg heq]
    have hlt : start < s.mNumSamples := by omega
    rw [if_neg (by omega : ¬ (start < 0 ∨ s.mNumSamples < start + (len : ℤ)))]
    refine ⟨?_, rfl⟩
    have hlen1 : 0 < s.mBlock.length := by
      by_contra hcon
      have hb : s.mBlock = [] := List.eq_nil_of_length_eq_zero (by omega)
      rw [hb, totalLen_nil] at htot
      omega
    have hfb := findBlockGo_spec s.mBlock start hch (s.mBlock.length + 1) 0
      s.mBlock.length 0 s.mNumSamples
      (by rw [cumLen_zero]; rfl)
      (by rw [cumLen_length, htot])
      hlen1 (le_refl _) (by omega) h0 hlt
    unfold findBlock
    by_cases hz : start = 0
    · rw [if_pos hz]
      have hgo := seqGetGo_spec s.mBlock (len + 1) 0 0 start len (by omega)
        (by rw [List.drop_zero]; exact hch)
        h0
        (by
          rw [List.drop_zero]
          omega)
        (by
          intro hpos blk rest hdr
          rw [List.drop_zero] at hdr
          rw [hdr] at hch
          obtain ⟨-, h2, -⟩ := hch
          rw [hz]
          push_cast
          omega)
      rw [hgo]
      simp [seqContent]
    · rw [if_neg hz]
      obtain ⟨blk, hbget, hb1, hb2⟩ := hfb
      set bres := findBlockGo s.mBlock start (s.mBlock.length + 1) 0
        s.mBlock.length 0 s.mNumSamples with hbres
      obtain ⟨hblt, hbeq⟩ := List.get?_eq_some.mp hbget
      have hgot := chainFrom_get s.mBlock 0 hch bres hblt
      rw [zero_add, hbeq] at hgot
      obtain ⟨hstart, -⟩ := hgot
      have hchd := chainFrom_drop s.mBlock 0 bres hch
      rw [zero_add, ← hstart] at hchd
      have hsplit := totalLen_split s.mBlock bres
      have hgo := seqGetGo_spec s.mBlock (len + 1) bres blk.start start len
        (by omega) hchd hb1 (by omega)
        (by
          intro hpos blk2 rest2 hdr
          have h2 := get?_of_drop_cons s.mBlock bres blk2 rest2 hdr
          rw [hbget] at h2
          rw [← Option.some_inj.mp h2]
          exact hb2)
      rw [hgo]
      have hidx : start.toNat = cumLen s.mBlock bres + (start - blk.start).toNat := by
        omega
      rw [hidx, seqContent_drop]

theorem seqGet_mem (s : Seq) (start : ℤ) (len : ℕ) (x : ℚ)
    (hx : x ∈ (seqGet s start len).1) : x = 0 ∨ x ∈ seqContent s := by
  unfold seqGet at hx
  by_cases h1 : start = s.mNumSamples
  · rw [if_pos h1] at hx
    exact absurd hx (List.not_mem_nil x)
  · rw [if_neg h1] at hx
    by_cases h2 : start < 0 ∨ s.mNumSamples < start + (len : ℤ)
    · rw [if_pos h2] at hx
      exact Or.inl (List.eq_of_mem_replicate hx)
    · rw [if_neg h2] at hx
      exact seqGetGo_mem s.mBlock _ _ _ _ x hx

/-- A clip copy step leaves positions outside the clip untouched. -/
theorem clipCopy_not_covered (start : ℤ) (len : ℕ) (c : WClip) (buf : ℕ → ℚ)
    (i : ℕ) (h : ¬ coversPos c (start + (i : ℤ))) :
    clipCopy start len c buf i = buf i := by
  have hEe : GetEndSample c = GetStartSample c + GetNumSamples c := rfl
  simp only [clipCopy]
  split_ifs with h1 h2 h3 h4
  · exact absurd (show coversPos c (start + (i : ℤ)) from ⟨by omega, by omega⟩) h
  · rfl
  · exact absurd (show coversPos c (start + (i : ℤ)) from ⟨by omega, by omega⟩) h
  · rfl
  · rfl

/-- A clip copy step writes the clip's stored sample at every in-request
position the clip covers. -/
theorem clipCopy_covered (start : ℤ) (len : ℕ) (c : WClip) (buf : ℕ → ℚ)
    (i : ℕ) (hcons : SeqConsistent c.seq) (hi : i < len)
    (hcov : coversPos c (start + (i : ℤ))) :
    clipCopy start len c buf i =
      (seqContent c.seq).getD ((start + (i : ℤ) - GetStartSample c).toNat) 0 := by
  obtain ⟨hc1, hc2⟩ := hcov
  have hEe : GetEndSample c = GetStartSample c + GetNumSamples c := rfl
  have hNe : GetNumSamples c = c.seq.mNumSamples := rfl
  simp only [clipCopy]
  rw [if_pos (show start < GetEndSample c ∧ GetStartSample c < start + (len : ℤ)
    from ⟨by omega, by omega⟩)]
  by_cases h2 : GetStartSample c - start < 0
  · rw [if_pos h2,
      if_pos (show (i : ℤ) < min (start + (len : ℤ) - GetStartSample c)
        (GetNumSamples c) - (start - GetStartSample c) by omega)]
    obtain ⟨hval, -⟩ := seqGet_spec c.seq hcons (start - GetStartSample c)
      ((min (start + (len : ℤ) - GetStartSample c) (GetNumSamples c) -
        (start - GetStartSample c)).toNat)
      (by omega) (by omega)
    rw [hval, getD_take_of_lt _ _ _ (by omega), getD_drop_add]
    have hidx : (start - GetStartSample c).toNat + i =
        (start + (i : ℤ) - GetStartSample c).toNat := by omega
    rw [hidx]
  · rw [if_neg h2,
      if_pos (show (GetStartSample c - start).toNat ≤ i ∧
        (i : ℤ) < (GetStartSample c - start) +
          min (start + (len : ℤ) - GetStartSample c) (GetNumSamples c)
        from ⟨by omega, by omega⟩)]
    obtain ⟨hval, -⟩ := seqGet_spec c.seq hcons 0
      ((min (start + (len : ℤ) - GetStartSample c) (GetNumSamples c)).toNat)
      le_rfl (by omega)
    rw [hval, show ((0 : ℤ).toNat) = 0 from rfl, List.drop_zero,
      getD_take_of_lt _ _ _ (by omega)]
    have hidx : i - (GetStartSample c - start).toNat =
        (start + (i : ℤ) - GetStartSample c).toNat := by omega
    rw [hidx]

/-- The copy fold leaves positions covered by no clip untouched. -/
theorem foldCopy_not_covered (start : ℤ) (len : ℕ) :
    ∀ (clips : List WClip) (buf : ℕ → ℚ) (i : ℕ),
      (∀ c ∈ clips, ¬ coversPos c (start + (i : ℤ))) →
      (clips.foldl (fun b c => clipCopy start len c b) buf) i = buf i := by
  intro clips
  induction clips with
  | nil => intro buf i _; rfl
  | cons c rest ih =>
      intro buf i h
      rw [List.foldl_cons,
        ih (clipCopy start len c buf) i
          (fun c' hc' => h c' (List.mem_cons_of_mem _ hc'))]
      exact clipCopy_not_covered start len c buf i (h c (List.mem_cons_self _ _))

/-- For pairwise disjoint, consistent clips, the copy fold writes the
covering clip's stored sample at every covered in-request position. -/
theorem foldCopy_covered (start : ℤ) (len : ℕ) :
    ∀ (clips : List WClip) (buf : ℕ → ℚ) (i : ℕ) (c : WClip),
      (∀ c' ∈ clips, SeqConsistent c'.seq) →
      List.Pairwise ClipsDisjoint clips →
      c ∈ clips → i < len → coversPos c (start + (i : ℤ)) →
      (clips.foldl (fun b c' => clipCopy start len c' b) buf) i =
        (seqContent c.seq).getD ((start + (i : ℤ) - GetStartSample c).toNat) 0 := by
  intro clips
  induction clips with
  | nil => intro buf i c _ _ hc; exact absurd hc (List.not_mem_nil c)
  | cons c0 rest ih =>
      intro buf i c hcons hpw hc hi hcov
      rw [List.foldl_cons]
      rw [List.pairwise_cons] at hpw
      rcases List.mem_cons.mp hc with rfl | hmem
      · rw [foldCopy_not_covered start len rest (clipCopy start len c buf) i
          (fun c'' hc'' hcov'' => hpw.1 c'' hc'' (start + (i : ℤ)) ⟨hcov, hcov''⟩)]
        exact clipCopy_covered start len c buf i
          (hcons c (List.mem_cons_self _ _)) hi hcov
      · exact ih (clipCopy start len c0 buf) i c
          (fun c' hc' => hcons c' (List.mem_cons_of_mem _ hc'))
          hpw.2 hmem hi hcov

/-- WaveTrack::Get returns the covering clip's stored sample at every
covered in-request position. -/
theorem trackGet_covered_eq_content (clips : List WClip) (fill : FillFormat)
    (start : ℤ) (len : ℕ) (junk : ℕ → ℚ) (i : ℕ) (c : WClip)
    (hcons : ∀ c' ∈ clips, SeqConsistent c'.seq)
    (hdisj : List.Pairwise ClipsDisjoint clips)
    (hc : c ∈ clips) (hi : i < len) (hcov : coversPos c (start + (i : ℤ))) :
    trackGet clips fill start len junk i =
      (seqContent c.seq).getD ((start + (i : ℤ) - GetStartSample c).toNat) 0 := by
  simp only [trackGet]
  exact foldCopy_covered start len clips _ i c hcons hdisj hc hi hcov

/-- WaveTrack::Get returns the fill constant at every in-request position
covered by no clip. -/
theorem trackGet_not_covered_eq_fill (clips : List WClip) (fill : FillFormat)
    (start : ℤ) (len : ℕ) (junk : ℕ → ℚ) (i : ℕ) (hi : i < len)
    (hnc : ∀ c ∈ clips, ¬ coversPos c (start + (i : ℤ))) :
    trackGet clips fill start len junk i = fillValue fill := by
  have hdc : ¬ ∃ c ∈ clips,
      GetStartSample c ≤ start ∧ start + (len : ℤ) ≤ GetEndSample c := by
    rintro ⟨c, hc, hs, he⟩
    exact hnc c hc ⟨by omega, by omega⟩
  simp only [trackGet]
  rw [foldCopy_not_covered start len clips _ i hnc, if_pos hdc]

/-- Any sample a clip copy step reads out of its sequence is zero or a
stored sample of that sequence. -/
theorem getD_seqGet_cases (s : Seq) (a : ℤ) (m k : ℕ) :
    ((seqGet s a m).1).getD k 0 = 0 ∨ ((seqGet s a m).1).getD k 0 ∈ seqContent s := by
  rcases getD_mem_or_zero ((seqGet s a m).1) k with h | h
  · exact Or.inl h
  · exact seqGet_mem s a m _ h

/-- A clip copy step leaves the buffer value, writes zero, or writes a
stored sample of the clip. -/
theorem clipCopy_cases (start : ℤ) (len : ℕ) (c : WClip) (buf : ℕ → ℚ) (i : ℕ) :
    clipCopy start len c buf i = buf i ∨ clipCopy start len c buf i = 0 ∨
    clipCopy start len c buf i ∈ seqContent c.seq := by
  simp only [clipCopy]
  split_ifs with h1 h2 h3 h4
  · exact Or.inr (getD_seqGet_cases _ _ _ _)
  · exact Or.inl rfl
  · exact Or.inr (getD_seqGet_cases _ _ _ _)
  · exact Or.inl rfl
  · exact Or.inl rfl

/-- A clip copy step overwrites every in-request position its clip covers
with zero or a stored sample of the clip. -/
theorem clipCopy_overwrite (start : ℤ) (len : ℕ) (c : WClip) (buf : ℕ → ℚ)
    (i : ℕ) (hi : i < len) (hcov : coversPos c (start + (i : ℤ))) :
    clipCopy start len c buf i = 0 ∨ clipCopy start len c buf i ∈ seqContent c.seq := by
  obtain ⟨hc1, hc2⟩ := hcov
  have hEe : GetEndSample c = GetStartSample c + GetNumSamples c := rfl
  simp only [clipCopy]
  rw [if_pos (show start < GetEndSample c ∧ GetStartSample c < start + (len : ℤ)
    from ⟨by omega, by omega⟩)]
  by_cases h2 : GetStartSample c - start < 0
  · rw [if_pos h2,
      if_pos (show (i : ℤ) < min (start + (len : ℤ) - GetStartSample c)
        (GetNumSamples c) - (start - GetStartSample c) by omega)]
    exact getD_seqGet_cases _ _ _ _
  · rw [if_neg h2,
      if_pos (show (GetStartSample c - start).toNat ≤ i ∧
        (i : ℤ) < (GetStartSample c - start) +
          min (start + (len : ℤ) - GetStartSample c) (GetNumSamples c)
        from ⟨by omega, by omega⟩)]
    exact getD_seqGet_cases _ _ _ _

/-- The copy fold leaves the base buffer value, writes zero, or writes a
stored sample of one of the clips. -/
theorem foldCopy_cases (start : ℤ) (len : ℕ) :
    ∀ (clips : List WClip) (buf : ℕ → ℚ) (i : ℕ),
      (clips.foldl (fun b c => clipCopy start len c b) buf) i = buf i ∨
      (clips.foldl (fun b c => clipCopy start len c b) buf) i = 0 ∨
      ∃ c ∈ clips, (clips.foldl (fun b c => clipCopy start len c b) buf) i ∈
        seqContent c.seq := by
  intro clips
  induction clips with
  | nil => intro buf i; exact Or.inl rfl
  | cons c0 rest ih =>
      intro buf i
      rw [List.foldl_cons]
      rcases ih (clipCopy start len c0 buf) i with h | h | ⟨c', hc', h⟩
      · rw [h]
        rcases clipCopy_cases start len c0 buf i with h' | h' | h'
        · exact Or.inl h'
        · exact Or.inr (Or.inl h')
        · exact Or.inr (Or.inr ⟨c0, List.mem_cons_self _ _, h'⟩)
      · exact Or.inr (Or.inl h)
      · exact Or.inr (Or.inr ⟨c', List.mem_cons_of_mem _ hc', h⟩)

/-- When some clip covers an in-request position, the copy fold result
there is zero or a stored sample of one of the clips. -/
theorem foldCopy_written (start : ℤ) (len : ℕ) :
    ∀ (clips : List WClip) (buf : ℕ → ℚ) (i : ℕ) (c : WClip),
      c ∈ clips → i < len → coversPos c (start + (i : ℤ)) →
      (clips.foldl (fun b c' => clipCopy start len c' b) buf) i = 0 ∨
      ∃ c' ∈ clips, (clips.foldl (fun b c' => clipCopy start len c' b) buf) i ∈
        seqContent c'.seq := by
  intro clips
  induction clips with
  | nil => intro buf i c hc; exact absurd hc (List.not_mem_nil c)
  | cons c0 rest ih =>
      intro buf i c hc hi hcov
      rw [List.foldl_cons]
      rcases List.mem_cons.mp hc with rfl | hmem
      · rcases foldCopy_cases start len rest (clipCopy start len c buf) i with
          h | h | ⟨c', hc', h⟩
        · rw [h]
          rcases clipCopy_overwrite start len c buf i hi hcov with h' | h'
          · exact Or.inl h'
          · exact Or.inr ⟨c, List.mem_cons_self _ _, h'⟩
        · exact Or.inl h
        · exact Or.inr ⟨c', List.mem_cons_of_mem _ hc', h⟩
      · rcases ih (clipCopy start len c0 buf) i c hmem hi hcov with h | ⟨c', hc', h⟩
        · exact Or.inl h
        · exact Or.inr ⟨c', List.mem_cons_of_mem _ hc', h⟩

/-- C1: for a track of pairwise disjoint, consistent clips, WaveTrack::Get
with fill mode fillZero fills every requested position: a position inside
some clip receives that clip's stored sample, a position covered by no
clip receives zero, and the tail-filling step of BlockFile::CommonReadData
pads a short block-file read to the requested length with zeros. -/
theorem waveTrack_get_fillZero_correct (t : WaveTrack) (start : ℤ) (len : ℕ)
    (junk : ℕ → ℚ) (i : ℕ)
    (hcons : ∀ c ∈ t.clips, SeqConsistent c.seq)
    (hdisj : List.Pairwise ClipsDisjoint t.clips)
    (hi : i < len) :
    (∀ c ∈ t.clips, coversPos c (start + (i : ℤ)) →
        waveTrackGet t FillFormat.fillZero start len junk i =
          (seqContent c.seq).getD ((start + (i : ℤ) - GetStartSample c).toNat) 0) ∧
    ((∀ c ∈ t.clips, ¬ coversPos c (start + (i : ℤ))) →
        waveTrackGet t FillFormat.fillZero start len junk i = 0) ∧
    (∀ (delivered : List ℚ) (j : ℕ), delivered.length ≤ len →
        (commonReadDataFill delivered len).length = len ∧
        (delivered.length ≤ j → j < len →
          (commonReadDataFill delivered len).getD j 0 = 0)) := by
  refine ⟨fun c hc hcov =>
      trackGet_covered_eq_content t.clips _ start len junk i c hcons hdisj hc hi hcov,
    fun hnc => trackGet_not_covered_eq_fill t.clips _ start len junk i hi hnc,
    fun delivered j hdl => ⟨?_, fun hj1 hj2 => ?_⟩⟩
  · unfold commonReadDataFill
    split_ifs with h
    · rw [List.length_append, List.length_replicate]
      omega
    · omega
  · unfold commonReadDataFill
    rw [if_pos (by omega), List.getD_eq_getElem?_getD,
      List.getElem?_append_right (by omega), List.getElem?_replicate,
      if_pos (by omega)]
    rfl

/-- Witness for C1 on the concrete two-clip track: position 1 delivers the
first clip's stored sample 11, the gap position 2 delivers 0, and the
CommonReadData tail fill pads a one-sample delivery to six samples with
zeros. -/
theorem waveTrack_get_fillZero_witness :
    waveTrackGet trackAB FillFormat.fillZero 0 6 (fun _ => 9) 1 = 11 ∧
    waveTrackGet trackAB FillFormat.fillZero 0 6 (fun _ => 9) 2 = 0 ∧
    (commonReadDataFill [(7 : ℚ)] 6).length = 6 ∧
    (commonReadDataFill [(7 : ℚ)] 6).getD 3 0 = 0 := by
  have hSA : GetStartSample clipA = 0 := by
    unfold GetStartSample clipA
    rw [Int.floor_eq_iff] <;> norm_num
  have hSB : GetStartSample clipB = 3 := by
    unfold GetStartSample clipB
    rw [Int.floor_eq_iff] <;> norm_num
  have hEA : GetEndSample clipA = 2 := by
    unfold GetEndSample GetNumSamples
    rw [hSA]
    rfl
  have hcons : ∀ c ∈ trackAB.clips, SeqConsistent c.seq := by
    intro c hc
    simp only [trackAB, List.mem_cons, List.not_mem_nil, or_false] at hc
    rcases hc with rfl | rfl
    · exact ⟨by norm_num [clipA, ChainFrom], by norm_num [clipA, seqContent]⟩
    · exact ⟨by norm_num [clipB, ChainFrom], by norm_num [clipB, seqContent]⟩
  have hdisj : List.Pairwise ClipsDisjoint trackAB.clips := by
    show List.Pairwise ClipsDisjoint [clipA, clipB]
    refine List.pairwise_cons.mpr ⟨?_, List.pairwise_singleton _ _⟩
    intro b hb
    rw [List.mem_singleton] at hb
    subst hb
    intro p hp
    obtain ⟨⟨-, ha2⟩, hb1, -⟩ := hp
    rw [hEA] at ha2
    rw [hSB] at hb1
    omega
  refine ⟨?_, ?_, ?_, ?_⟩
  · have h := (waveTrack_get_fillZero_correct trackAB 0 6 (fun _ => 9) 1 hcons hdisj
      (by norm_num)).1 clipA (by simp [trackAB])
      ⟨by rw [hSA]; norm_num, by rw [hEA]; norm_num⟩
    rw [h, hSA]
    rfl
  · exact (waveTrack_get_fillZero_correct trackAB 0 6 (fun _ => 9) 2 hcons hdisj
      (by norm_num)).2.1 (by
        intro c hc
        simp only [trackAB, List.mem_cons, List.not_mem_nil, or_false] at hc
        rcases hc with rfl | rfl
        · rintro ⟨-, h2⟩
          rw [hEA] at h2
          omega
        · rintro ⟨h1, -⟩
          rw [hSB] at h1
          omega)
  · exact ((waveTrack_get_fillZero_correct trackAB 0 6 (fun _ => 9) 1 hcons hdisj
      (by norm_num)).2.2 [(7 : ℚ)] 3 (by norm_num)).1
  · exact ((waveTrack_get_fillZero_correct trackAB 0 6 (fun _ => 9) 1 hcons hdisj
      (by norm_num)).2.2 [(7 : ℚ)] 3 (by norm_num)).2 (by norm_num) (by norm_num)

/-- Replacing every clip's envelope leaves the copy fold unchanged: the
read path never consults the envelope field. -/
theorem foldCopy_map_env (start : ℤ) (len : ℕ) (newEnv : WClip → ℚ → ℚ) :
    ∀ (clips : List WClip) (buf : ℕ → ℚ),
      ((clips.map (fun c =>
          (⟨c.offset, c.rate, c.seq, c.appendBufferLen, newEnv c⟩ : WClip))).foldl
        (fun b c => clipCopy start len c b) buf) =
      clips.foldl (fun b c => clipCopy start len c b) buf := by
  intro clips
  induction clips with
  | nil => intro buf; rfl
  | cons c rest ih =>
      intro buf
      rw [List.map_cons, List.foldl_cons, List.foldl_cons]
      rw [show clipCopy start len
          (⟨c.offset, c.rate, c.seq, c.appendBufferLen, newEnv c⟩ : WClip) buf =
          clipCopy start len c buf from rfl]
      exact ih _

/-- C4: WaveTrack::Get returns stored samples verbatim: replacing the
track's gain, the track's pan and every clip's amplitude envelope leaves
every returned sample unchanged, and GetChannelGain — the separate mixing
path that does combine gain and pan — reads nothing from the clip list. -/
theorem track_get_ignores_gain_pan_envelope (t : WaveTrack) (g p : ℚ)
    (newEnv : WClip → ℚ → ℚ) (fill : FillFormat) (start : ℤ) (len : ℕ)
    (junk : ℕ → ℚ) :
    waveTrackGet
        ⟨g, p, t.clips.map (fun c =>
          (⟨c.offset, c.rate, c.seq, c.appendBufferLen, newEnv c⟩ : WClip))⟩
        fill start len junk =
      waveTrackGet t fill start len junk ∧
    (∀ (clips' : List WClip) (channel : ℤ),
        GetChannelGain ⟨t.gain, t.pan, clips'⟩ channel = GetChannelGain t channel) := by
  constructor
  · show trackGet (t.clips.map (fun c =>
        (⟨c.offset, c.rate, c.seq, c.appendBufferLen, newEnv c⟩ : WClip)))
        fill start len junk = trackGet t.clips fill start len junk
    have hiff : (∃ c ∈ t.clips.map (fun c =>
          (⟨c.offset, c.rate, c.seq, c.appendBufferLen, newEnv c⟩ : WClip)),
          GetStartSample c ≤ start ∧ start + (len : ℤ) ≤ GetEndSample c) ↔
        (∃ c ∈ t.clips,
          GetStartSample c ≤ start ∧ start + (len : ℤ) ≤ GetEndSample c) := by
      constructor
      · rintro ⟨c, hc, h⟩
        obtain ⟨c0, hc0, rfl⟩ := List.mem_map.mp hc
        exact ⟨c0, hc0, h⟩
      · rintro ⟨c0, hc0, h⟩
        exact ⟨_, List.mem_map_of_mem _ hc0, h⟩
    simp only [trackGet]
    rw [foldCopy_map_env]
    congr 1
    exact if_congr (not_congr hiff) rfl rfl
  · exact fun clips' channel => rfl

/-- C5 counterexample: a fillTwo read over an empty clip list returns the
constant 2.0, outside [-1.0, 1.0]. -/
theorem sample_range_counterexample :
    waveTrackGet ⟨1, 0, []⟩ FillFormat.fillTwo 0 1 (fun _ => 0) 0 = 2 := by
  rfl

/-- C5 (amended): with fill mode fillZero, every in-request sample returned
by WaveTrack::Get lies in [-1.0, 1.0] provided every stored clip sample
does; the code itself never clamps, so the bound comes entirely from the
stored data. -/
theorem sample_range_amended (t : WaveTrack) (start : ℤ) (len : ℕ)
    (junk : ℕ → ℚ) (i : ℕ) (hi : i < len)
    (hstored : ∀ c ∈ t.clips, ∀ x ∈ seqContent c.seq, -1 ≤ x ∧ x ≤ 1) :
    -1 ≤ waveTrackGet t FillFormat.fillZero start len junk i ∧
    waveTrackGet t FillFormat.fillZero start len junk i ≤ 1 := by
  show -1 ≤ trackGet t.clips FillFormat.fillZero start len junk i ∧
    trackGet t.clips FillFormat.fillZero start len junk i ≤ 1
  simp only [trackGet]
  by_cases hdc : ¬ ∃ c ∈ t.clips,
      GetStartSample c ≤ start ∧ start + (len : ℤ) ≤ GetEndSample c
  · rw [if_pos hdc]
    rcases foldCopy_cases start len t.clips
        (fun _ => fillValue FillFormat.fillZero) i with h | h | ⟨c, hc, h⟩
    · rw [h]
      norm_num [fillValue]
    · rw [h]
      norm_num
    · exact hstored c hc _ h
  · rw [if_neg hdc]
    rw [not_not] at hdc
    obtain ⟨c, hc, hs, he⟩ := hdc
    rcases foldCopy_written start len t.clips junk i c hc hi
        ⟨by omega, by omega⟩ with h | ⟨c', hc', h⟩
    · rw [h]
      norm_num
    · exact hstored c' hc' _ h

/-- Witness for C5 (amended): the one-clip track storing 1/2 and -1/2;
position 0 of a two-sample read lies in [-1, 1]. -/
theorem sample_range_amended_witness :
    -1 ≤ waveTrackGet trackHalf FillFormat.fillZero 0 2 (fun _ => 9) 0 ∧
    waveTrackGet trackHalf FillFormat.fillZero 0 2 (fun _ => 9) 0 ≤ 1 := by
  refine sample_range_amended trackHalf 0 2 (fun _ => 9) 0 (by norm_num) ?_
  intro c hc x hx
  simp only [trackHalf, List.mem_cons, List.not_mem_nil, or_false] at hc
  subst hc
  simp only [seqContent, List.map_cons, List.map_nil, List.flatten] at hx
  simp only [List.append_nil, List.mem_cons, List.not_mem_nil, or_false] at hx
  rcases hx with rfl | rfl <;> norm_num

/-- The new-blocks loop of Sequence::Append stores exactly the input it is
given, in chain layout from the running position. -/
theorem appendNewBlocks_spec (maxS : ℕ) (hmax : 1 ≤ maxS) :
    ∀ (fuel : ℕ) (input : List ℚ) (startPos : ℤ),
      input.length < fuel →
      ((appendNewBlocks maxS fuel input startPos).map (fun blk => blk.f)).flatten
          = input ∧
      ChainFrom startPos (appendNewBlocks maxS fuel input startPos) := by
  intro fuel
  induction fuel with
  | zero => intro input startPos hf; exact absurd hf (Nat.not_lt_zero _)
  | succ f ih =>
      intro input startPos hf
      cases input with
      | nil => exact ⟨rfl, trivial⟩
      | cons x rest =>
          have hlen : (x :: rest).length = rest.length + 1 := rfl
          have hdroplen : ((x :: rest).drop (min maxS (x :: rest).length)).length
              = (x :: rest).length - min maxS (x :: rest).length :=
            List.length_drop _ _
          obtain ⟨ih1, ih2⟩ := ih
            ((x :: rest).drop (min maxS (x :: rest).length))
            (startPos + (min maxS (x :: rest).length : ℕ)) (by omega)
          constructor
          · simp only [appendNewBlocks, List.map_cons, List.flatten_cons]
            rw [ih1, List.take_append_drop]
          · simp only [appendNewBlocks]
            refine ⟨rfl, ?_, ?_⟩
            · show 1 ≤ ((x :: rest).take (min maxS (x :: rest).length)).length
              rw [List.length_take]
              omega
            · show ChainFrom (startPos +
                (((x :: rest).take (min maxS (x :: rest).length)).length : ℕ))
                (appendNewBlocks maxS f
                  ((x :: rest).drop (min maxS (x :: rest).length))
                  (startPos + (min maxS (x :: rest).length : ℕ)))
              have hoff : ((x :: rest).take (min maxS (x :: rest).length)).length
                  = min maxS (x :: rest).length := by
                rw [List.length_take]
                omega
              rw [hoff]
              exact ih2

/-- The plain commit of Sequence::Append (no last-block enlargement): the
new blocks are appended after the existing ones and the count grows. -/
theorem appendCommit_spec (s : Seq) (input : List ℚ) (s' : Seq)
    (hs' : s' = ⟨s.mBlock ++ appendNewBlocks (seqGetIdealBlockSize s)
        (input.length + 1) input s.mNumSamples,
      s.mNumSamples + (input.length : ℤ), s.mMinSamples, s.mMaxSamples⟩)
    (hcons : SeqConsistent s) (hmax : 1 ≤ s.mMaxSamples) :
    SeqConsistent s' ∧ seqContent s' = seqContent s ++ input := by
  subst hs'
  obtain ⟨hch, hnum⟩ := hcons
  obtain ⟨a1, a2⟩ := appendNewBlocks_spec (seqGetIdealBlockSize s) hmax
    (input.length + 1) input s.mNumSamples (by omega)
  have hcontent : seqContent (⟨s.mBlock ++ appendNewBlocks (seqGetIdealBlockSize s)
        (input.length + 1) input s.mNumSamples,
      s.mNumSamples + (input.length : ℤ), s.mMinSamples, s.mMaxSamples⟩ : Seq)
      = seqContent s ++ input := by
    show ((s.mBlock ++ appendNewBlocks (seqGetIdealBlockSize s)
        (input.length + 1) input s.mNumSamples).map (fun blk => blk.f)).flatten
      = seqContent s ++ input
    rw [List.map_append, List.flatten_append, a1]
    rfl
  refine ⟨⟨?_, ?_⟩, hcontent⟩
  · show ChainFrom 0 (s.mBlock ++ appendNewBlocks (seqGetIdealBlockSize s)
      (input.length + 1) input s.mNumSamples)
    refine (chainFrom_append s.mBlock 0 _).mpr ⟨hch, ?_⟩
    have htl : totalLen s.mBlock = (seqContent s).length := rfl
    have hoff : (0 : ℤ) + (totalLen s.mBlock : ℤ) = s.mNumSamples := by
      rw [hnum, htl]
      omega
    rw [hoff]
    exact a2
  · show s.mNumSamples + (input.length : ℤ) =
      ((seqContent (⟨s.mBlock ++ appendNewBlocks (seqGetIdealBlockSize s)
          (input.length + 1) input s.mNumSamples,
        s.mNumSamples + (input.length : ℤ), s.mMinSamples, s.mMaxSamples⟩ : Seq)).length : ℤ)
    rw [hcontent, List.length_append]
    rw [hnum]
    push_cast
    ring

/-- The enlargement commit of Sequence::Append: the sub-minimum last block
is replaced by its enlargement, followed by the new blocks. -/
theorem appendEnlarge_spec (s : Seq) (input : List ℚ) (lastBlock : SeqBlock)
    (hlast : s.mBlock.getLast? = some lastBlock) (s' : Seq)
    (hs' : s' = ⟨s.mBlock.dropLast ++
        (⟨lastBlock.f ++
            input.take (min (s.mMaxSamples - lastBlock.f.length) input.length),
          lastBlock.start⟩ : SeqBlock) ::
          appendNewBlocks (seqGetIdealBlockSize s) (input.length + 1)
            (input.drop (min (s.mMaxSamples - lastBlock.f.length) input.length))
            (s.mNumSamples +
              (min (s.mMaxSamples - lastBlock.f.length) input.length : ℕ)),
      s.mNumSamples + (input.length : ℤ), s.mMinSamples, s.mMaxSamples⟩)
    (hcons : SeqConsistent s) (hmax : 1 ≤ s.mMaxSamples) :
    SeqConsistent s' ∧ seqContent s' = seqContent s ++ input := by
  subst hs'
  obtain ⟨hch, hnum⟩ := hcons
  have hne : s.mBlock ≠ [] := by
    intro he
    rw [he] at hlast
    exact Option.noConfusion hlast
  have hgl : s.mBlock.getLast hne = lastBlock := by
    have hx := List.getLast?_eq_getLast s.mBlock hne
    rw [hlast] at hx
    exact (Option.some_inj.mp hx).symm
  have hsplit : s.mBlock = s.mBlock.dropLast ++ [lastBlock] := by
    rw [← hgl]
    exact (List.dropLast_append_getLast hne).symm
  obtain ⟨hchD, hchL⟩ :=
    (chainFrom_append s.mBlock.dropLast 0 [lastBlock]).mp (by rw [← hsplit]; exact hch)
  obtain ⟨hLstart, hL1, -⟩ := hchL
  obtain ⟨a1, a2⟩ := appendNewBlocks_spec (seqGetIdealBlockSize s) hmax
    (input.length + 1)
    (input.drop (min (s.mMaxSamples - lastBlock.f.length) input.length))
    (s.mNumSamples + (min (s.mMaxSamples - lastBlock.f.length) input.length : ℕ))
    (by rw [List.length_drop]; omega)
  have hcs : seqContent s =
      (s.mBlock.dropLast.map (fun blk => blk.f)).flatten ++ lastBlock.f := by
    show (s.mBlock.map (fun blk => blk.f)).flatten = _
    conv_lhs => rw [hsplit]
    rw [List.map_append, List.flatten_append]
    simp
  have htotal : totalLen s.mBlock =
      totalLen s.mBlock.dropLast + lastBlock.f.length := by
    conv_lhs => rw [hsplit]
    rw [totalLen_append]
    simp [totalLen]
  have hcontent : seqContent (⟨s.mBlock.dropLast ++
        (⟨lastBlock.f ++
            input.take (min (s.mMaxSamples - lastBlock.f.length) input.length),
          lastBlock.start⟩ : SeqBlock) ::
          appendNewBlocks (seqGetIdealBlockSize s) (input.length + 1)
            (input.drop (min (s.mMaxSamples - lastBlock.f.length) input.length))
            (s.mNumSamples +
              (min (s.mMaxSamples - lastBlock.f.length) input.length : ℕ)),
      s.mNumSamples + (input.length : ℤ), s.mMinSamples, s.mMaxSamples⟩ : Seq)
      = seqContent s ++ input := by
    show ((s.mBlock.dropLast ++
        (⟨lastBlock.f ++
            input.take (min (s.mMaxSamples - lastBlock.f.length) input.length),
          lastBlock.start⟩ : SeqBlock) ::
          appendNewBlocks (seqGetIdealBlockSize s) (input.length + 1)
            (input.drop (min (s.mMaxSamples - lastBlock.f.length) input.length))
            (s.mNumSamples +
              (min (s.mMaxSamples - lastBlock.f.length) input.length : ℕ))).map
        (fun blk => blk.f)).flatten = seqContent s ++ input
    rw [List.map_append, List.map_cons, List.flatten_append, List.flatten_cons,
      a1, hcs]
    simp only [List.append_assoc, List.take_append_drop]
  refine ⟨⟨?_, ?_⟩, hcontent⟩
  · show ChainFrom 0 (s.mBlock.dropLast ++
      (⟨lastBlock.f ++
          input.take (min (s.mMaxSamples - lastBlock.f.length) input.length),
        lastBlock.start⟩ : SeqBlock) ::
        appendNewBlocks (seqGetIdealBlockSize s) (input.length + 1)
          (input.drop (min (s.mMaxSamples - lastBlock.f.length) input.length))
          (s.mNumSamples +
            (min (s.mMaxSamples - lastBlock.f.length) input.length : ℕ)))
    refine (chainFrom_append s.mBlock.dropLast 0 _).mpr ⟨hchD, ?_⟩
    refine ⟨hLstart, ?_, ?_⟩
    · show 1 ≤ (lastBlock.f ++
        input.take (min (s.mMaxSamples - lastBlock.f.length) input.length)).length
      rw [List.length_append]
      omega
    · show ChainFrom ((0 : ℤ) + (totalLen s.mBlock.dropLast : ℤ) +
        ((lastBlock.f ++
          input.take (min (s.mMaxSamples - lastBlock.f.length) input.length)).length
          : ℕ))
        (appendNewBlocks (seqGetIdealBlockSize s) (input.length + 1)
          (input.drop (min (s.mMaxSamples - lastBlock.f.length) input.length))
          (s.mNumSamples +
            (min (s.mMaxSamples - lastBlock.f.length) input.length : ℕ)))
      have h2 : (input.take (min (s.mMaxSamples - lastBlock.f.length)
          input.length)).length
          = min (min (s.mMaxSamples - lastBlock.f.length) input.length)
            input.length := List.length_take _ _
      have h3 : s.mNumSamples = ((totalLen s.mBlock : ℕ) : ℤ) := hnum
      have hoff : (0 : ℤ) + (totalLen s.mBlock.dropLast : ℤ) +
          ((lastBlock.f ++
            input.take (min (s.mMaxSamples - lastBlock.f.length) input.length)).length
            : ℕ) =
          s.mNumSamples +
            ((min (s.mMaxSamples - lastBlock.f.length) input.length : ℕ) : ℤ) := by
        rw [List.length_append, h2]
        omega
      rw [hoff]
      exact a2
  · show s.mNumSamples + (input.length : ℤ) = _
    rw [hcontent, List.length_append, hnum]
    push_cast
    ring

/-- Sequence::Append of a consistent sequence appends exactly the input:
consistency is preserved, the stored content grows by the input, the count
grows by its length, and the block-size bounds are unchanged. -/
theorem seqAppend_spec (s : Seq) (input : List ℚ) (hcons : SeqConsistent s)
    (hmax : 1 ≤ s.mMaxSamples) :
    SeqConsistent (seqAppend s input) ∧
    seqContent (seqAppend s input) = seqContent s ++ input ∧
    (seqAppend s input).mNumSamples = s.mNumSamples + (input.length : ℤ) ∧
    (seqAppend s input).mMinSamples = s.mMinSamples ∧
    (seqAppend s input).mMaxSamples = s.mMaxSamples := by
  cases input with
  | nil => exact ⟨hcons, by simp [seqAppend], by simp [seqAppend], rfl, rfl⟩
  | cons x rest =>
      cases hlast : s.mBlock.getLast? with
      | some lastBlock =>
          have hunfold : seqAppend s (x :: rest) =
              if lastBlock.f.length < s.mMinSamples then
                (⟨s.mBlock.dropLast ++
                    (⟨lastBlock.f ++
                        (x :: rest).take (min (s.mMaxSamples - lastBlock.f.length)
                          (x :: rest).length),
                      lastBlock.start⟩ : SeqBlock) ::
                      appendNewBlocks (seqGetIdealBlockSize s)
                        ((x :: rest).length + 1)
                        ((x :: rest).drop (min (s.mMaxSamples - lastBlock.f.length)
                          (x :: rest).length))
                        (s.mNumSamples +
                          (min (s.mMaxSamples - lastBlock.f.length)
                            (x :: rest).length : ℕ)),
                  s.mNumSamples + ((x :: rest).length : ℤ), s.mMinSamples,
                  s.mMaxSamples⟩ : Seq)
              else
                (⟨s.mBlock ++ appendNewBlocks (seqGetIdealBlockSize s)
                    ((x :: rest).length + 1) (x :: rest) s.mNumSamples,
                  s.mNumSamples + ((x :: rest).length : ℤ), s.mMinSamples,
                  s.mMaxSamples⟩ : Seq) := by
            simp only [seqAppend]
            rw [hlast]
          by_cases hsmall : lastBlock.f.length < s.mMinSamples
          · rw [hunfold, if_pos hsmall]
            obtain ⟨h1, h2⟩ := appendEnlarge_spec s (x :: rest) lastBlock hlast _
              rfl hcons hmax
            exact ⟨h1, h2, rfl, rfl, rfl⟩
          · rw [hunfold, if_neg hsmall]
            obtain ⟨h1, h2⟩ := appendCommit_spec s (x :: rest) _ rfl hcons hmax
            exact ⟨h1, h2, rfl, rfl, rfl⟩
      | none =>
          have hunfold : seqAppend s (x :: rest) =
              (⟨s.mBlock ++ appendNewBlocks (seqGetIdealBlockSize s)
                  ((x :: rest).length + 1) (x :: rest) s.mNumSamples,
                s.mNumSamples + ((x :: rest).length : ℤ), s.mMinSamples,
                s.mMaxSamples⟩ : Seq) := by
            simp only [seqAppend]
            rw [hlast]
          rw [hunfold]
          obtain ⟨h1, h2⟩ := appendCommit_spec s (x :: rest) _ rfl hcons hmax
          exact ⟨h1, h2, rfl, rfl, rfl⟩

/-- Sequence::GetIdealAppendLen always lies in [1, mMaxSamples]. -/
theorem seqGetIdealAppendLen_bounds (s : Seq) (hmax : 1 ≤ s.mMaxSamples) :
    1 ≤ seqGetIdealAppendLen s ∧ seqGetIdealAppendLen s ≤ s.mMaxSamples := by
  unfold seqGetIdealAppendLen
  split
  · omega
  · split_ifs with h <;> omega

/-- The flush-a-block step of WaveClip::Append preserves the whole stored
stream (sequence content followed by append buffer), keeps consistency,
leaves the append buffer strictly below maxBlockSize, and re-establishes
the blockSize invariant. -/
theorem flushStep_spec (st : ClipBuf) (maxB : ℕ)
    (hmaxB : maxB = st.seq.mMaxSamples) (hmax : 1 ≤ maxB)
    (hbuf : st.buf.length ≤ maxB)
    (hbs : st.blockSize = seqGetIdealAppendLen st.seq)
    (hcons : SeqConsistent st.seq) :
    SeqConsistent (flushStep st).seq ∧
    seqContent (flushStep st).seq ++ (flushStep st).buf =
      seqContent st.seq ++ st.buf ∧
    (flushStep st).buf.length < maxB ∧
    maxB = (flushStep st).seq.mMaxSamples ∧
    (flushStep st).seq.mMinSamples = st.seq.mMinSamples ∧
    (flushStep st).blockSize = seqGetIdealAppendLen (flushStep st).seq := by
  obtain ⟨hb1, hb2⟩ := seqGetIdealAppendLen_bounds st.seq (by omega)
  unfold flushStep
  split_ifs with h
  · obtain ⟨s1, s2, s3, s4, s5⟩ := seqAppend_spec st.seq
      (st.buf.take st.blockSize) hcons (by omega)
    refine ⟨s1, ?_, ?_, ?_, s4, rfl⟩
    · show seqContent (seqAppend st.seq (st.buf.take st.blockSize)) ++
        st.buf.drop st.blockSize = seqContent st.seq ++ st.buf
      rw [s2, List.append_assoc, List.take_append_drop]
    · show (st.buf.drop st.blockSize).length < maxB
      rw [List.length_drop]
      omega
    · show maxB = (seqAppend st.seq (st.buf.take st.blockSize)).mMaxSamples
      rw [s5]
      exact hmaxB
  · exact ⟨hcons, rfl, by omega, hmaxB, rfl, hbs⟩

/-- The WaveClip::Append loop: the whole stored stream afterwards is the
stream before followed by the converted input; consistency, the buffer
bound and the block-size bounds are maintained. -/
theorem appendGo_spec (maxB : ℕ) (conv : ℚ → ℚ) :
    ∀ (fuel : ℕ) (input : List ℚ) (st : ClipBuf),
      input.length < fuel →
      maxB = st.seq.mMaxSamples → 1 ≤ maxB → st.buf.length ≤ maxB →
      st.blockSize = seqGetIdealAppendLen st.seq → SeqConsistent st.seq →
      SeqConsistent (appendGo maxB conv fuel input st).seq ∧
      seqContent (appendGo maxB conv fuel input st).seq ++
          (appendGo maxB conv fuel input st).buf =
        seqContent st.seq ++ st.buf ++ input.map conv ∧
      (appendGo maxB conv fuel input st).buf.length ≤ maxB ∧
      maxB = (appendGo maxB conv fuel input st).seq.mMaxSamples ∧
      (appendGo maxB conv fuel input st).seq.mMinSamples = st.seq.mMinSamples := by
  intro fuel
  induction fuel with
  | zero => intro input st hf; exact absurd hf (Nat.not_lt_zero _)
  | succ f ih =>
      intro input st hf hmaxB hmax hbuf hbs hcons
      obtain ⟨fs1, fs2, fs3, fs4, fs5, fs6⟩ :=
        flushStep_spec st maxB hmaxB hmax hbuf hbs hcons
      cases input with
      | nil =>
          have hred : appendGo maxB conv (f + 1) [] st = flushStep st := rfl
          rw [hred]
          exact ⟨fs1, by rw [fs2]; simp, le_of_lt fs3, fs4, fs5⟩
      | cons x rest =>
          have hred : appendGo maxB conv (f + 1) (x :: rest) st =
              appendGo maxB conv f
                ((x :: rest).drop
                  (min (x :: rest).length (maxB - (flushStep st).buf.length)))
                ⟨(flushStep st).seq,
                  (flushStep st).buf ++
                    ((x :: rest).take
                      (min (x :: rest).length
                        (maxB - (flushStep st).buf.length))).map conv,
                  (flushStep st).blockSize⟩ := rfl
          rw [hred]
          have hlen : (x :: rest).length = rest.length + 1 := rfl
          obtain ⟨g1, g2, g3, g4, g5⟩ := ih
            ((x :: rest).drop
              (min (x :: rest).length (maxB - (flushStep st).buf.length)))
            ⟨(flushStep st).seq,
              (flushStep st).buf ++
                ((x :: rest).take
                  (min (x :: rest).length
                    (maxB - (flushStep st).buf.length))).map conv,
              (flushStep st).blockSize⟩
            (by rw [List.length_drop]; omega)
            fs4 hmax
            (by
              show ((flushStep st).buf ++
                ((x :: rest).take
                  (min (x :: rest).length
                    (maxB - (flushStep st).buf.length))).map conv).length ≤ maxB
              rw [List.length_append, List.length_map, List.length_take]
              omega)
            fs6 fs1
          refine ⟨g1, ?_, g3, g4, g5.trans fs5⟩
          rw [g2]
          show seqContent (flushStep st).seq ++
              ((flushStep st).buf ++
                ((x :: rest).take
                  (min (x :: rest).length
                    (maxB - (flushStep st).buf.length))).map conv) ++
              ((x :: rest).drop
                (min (x :: rest).length
                  (maxB - (flushStep st).buf.length))).map conv =
            seqContent st.seq ++ st.buf ++ (x :: rest).map conv
          rw [List.append_assoc, List.append_assoc, ← List.map_append,
            List.take_append_drop, ← List.append_assoc, fs2]

/-- C3: starting from a flushed WaveClip over a consistent sequence,
Append(buffer, len) followed by Flush() leaves the append buffer empty,
grows the clip's stored stream by exactly the converted buffer, increases
the sample count by exactly len, and both the previously flushed samples
and the appended samples read back unchanged through Sequence::Get. -/
theorem clip_append_flush_correct (st0 : ClipBuf) (conv : ℚ → ℚ)
    (input : List ℚ) (hcons : SeqConsistent st0.seq) (hflushed : st0.buf = [])
    (hmax : 1 ≤ st0.seq.mMaxSamples) :
    (waveClipFlush (waveClipAppend conv st0 input)).buf = [] ∧
    seqContent (waveClipFlush (waveClipAppend conv st0 input)).seq =
      seqContent st0.seq ++ input.map conv ∧
    (waveClipFlush (waveClipAppend conv st0 input)).seq.mNumSamples =
      st0.seq.mNumSamples + (input.length : ℤ) ∧
    (seqGet (waveClipFlush (waveClipAppend conv st0 input)).seq 0
        (seqContent st0.seq).length).1 = seqContent st0.seq ∧
    (seqGet (waveClipFlush (waveClipAppend conv st0 input)).seq
        st0.seq.mNumSamples input.length).1 = input.map conv := by
  have hnum0 := hcons.2
  have hr1 : waveClipAppend conv st0 input =
      appendGo (seqGetMaxBlockSize st0.seq) conv (input.length + 1) input
        ⟨st0.seq, [], seqGetIdealAppendLen st0.seq⟩ := by
    rw [← hflushed]
    rfl
  obtain ⟨g1, g2, g3, g4, g5⟩ := appendGo_spec (seqGetMaxBlockSize st0.seq) conv
    (input.length + 1) input ⟨st0.seq, [], seqGetIdealAppendLen st0.seq⟩
    (by omega) rfl hmax (by simp) rfl hcons
  have g2' : seqContent (appendGo (seqGetMaxBlockSize st0.seq) conv
        (input.length + 1) input
        ⟨st0.seq, [], seqGetIdealAppendLen st0.seq⟩).seq ++
      (appendGo (seqGetMaxBlockSize st0.seq) conv (input.length + 1) input
        ⟨st0.seq, [], seqGetIdealAppendLen st0.seq⟩).buf =
      seqContent st0.seq ++ input.map conv := by
    have hx : seqContent (appendGo (seqGetMaxBlockSize st0.seq) conv
          (input.length + 1) input
          ⟨st0.seq, [], seqGetIdealAppendLen st0.seq⟩).seq ++
        (appendGo (seqGetMaxBlockSize st0.seq) conv (input.length + 1) input
          ⟨st0.seq, [], seqGetIdealAppendLen st0.seq⟩).buf =
        seqContent st0.seq ++ [] ++ input.map conv := g2
    simpa using hx
  have g4' : (1 : ℕ) ≤ (appendGo (seqGetMaxBlockSize st0.seq) conv
      (input.length + 1) input
      ⟨st0.seq, [], seqGetIdealAppendLen st0.seq⟩).seq.mMaxSamples := by
    rw [← g4]
    exact hmax
  rw [hr1]
  unfold waveClipFlush
  split_ifs with h
  · obtain ⟨s1, s2, s3, s4, s5⟩ := seqAppend_spec _ _ g1 g4'
    have hcontentF : seqContent (seqAppend
        (appendGo (seqGetMaxBlockSize st0.seq) conv (input.length + 1) input
          ⟨st0.seq, [], seqGetIdealAppendLen st0.seq⟩).seq
        (appendGo (seqGetMaxBlockSize st0.seq) conv (input.length + 1) input
          ⟨st0.seq, [], seqGetIdealAppendLen st0.seq⟩).buf) =
        seqContent st0.seq ++ input.map conv := by
      rw [s2, g2']
    have hnumF := s1.2
    have hmnum : (seqAppend
        (appendGo (seqGetMaxBlockSize st0.seq) conv (input.length + 1) input
          ⟨st0.seq, [], seqGetIdealAppendLen st0.seq⟩).seq
        (appendGo (seqGetMaxBlockSize st0.seq) conv (input.length + 1) input
          ⟨st0.seq, [], seqGetIdealAppendLen st0.seq⟩).buf).mNumSamples =
        st0.seq.mNumSamples + (input.length : ℤ) := by
      rw [hnumF, hcontentF, List.length_append, List.length_map, hnum0]
      push_cast
      ring
    refine ⟨rfl, hcontentF, hmnum, ?_, ?_⟩
    · obtain ⟨hb1, -⟩ := seqGet_spec _ s1 0 (seqContent st0.seq).length
        (le_refl 0) (by omega)
      rw [hb1, hcontentF, show ((0 : ℤ).toNat) = 0 from rfl, List.drop_zero,
        List.take_left]
    · obtain ⟨ha1, -⟩ := seqGet_spec _ s1 st0.seq.mNumSamples input.length
        (by omega) (by omega)
      rw [ha1, hcontentF]
      have hTo : st0.seq.mNumSamples.toNat = (seqContent st0.seq).length := by
        rw [hnum0]
        omega
      rw [hTo, List.drop_left,
        List.take_of_length_le (by rw [List.length_map])]
  · have hempty : (appendGo (seqGetMaxBlockSize st0.seq) conv
        (input.length + 1) input
        ⟨st0.seq, [], seqGetIdealAppendLen st0.seq⟩).buf = [] :=
      List.eq_nil_of_length_eq_zero (by omega)
    have hcontentF : seqContent (appendGo (seqGetMaxBlockSize st0.seq) conv
        (input.length + 1) input
        ⟨st0.seq, [], seqGetIdealAppendLen st0.seq⟩).seq =
        seqContent st0.seq ++ input.map conv := by
      have hx := g2'
      rw [hempty] at hx
      simpa using hx
    have hnumF := g1.2
    have hmnum : (appendGo (seqGetMaxBlockSize st0.seq) conv
        (input.length + 1) input
        ⟨st0.seq, [], seqGetIdealAppendLen st0.seq⟩).seq.mNumSamples =
        st0.seq.mNumSamples + (input.length : ℤ) := by
      rw [hnumF, hcontentF, List.length_append, List.length_map, hnum0]
      push_cast
      ring
    refine ⟨hempty, hcontentF, hmnum, ?_, ?_⟩
    · obtain ⟨hb1, -⟩ := seqGet_spec _ g1 0 (seqContent st0.seq).length
        (le_refl 0) (by omega)
      rw [hb1, hcontentF, show ((0 : ℤ).toNat) = 0 from rfl, List.drop_zero,
        List.take_left]
    · obtain ⟨ha1, -⟩ := seqGet_spec _ g1 st0.seq.mNumSamples input.length
        (by omega) (by omega)
      rw [ha1, hcontentF]
      have hTo : st0.seq.mNumSamples.toNat = (seqContent st0.seq).length := by
        rw [hnum0]
        omega
      rw [hTo, List.drop_left,
        List.take_of_length_le (by rw [List.length_map])]

/-- Witness for C3: a flushed clip holding [1, 2] in one block (min 2,
max 4 samples per block), appending [3, 4, 5, 6, 7] and flushing. -/
theorem clip_append_flush_witness :
    (waveClipFlush (waveClipAppend id
      (⟨⟨[⟨[1, 2], 0⟩], 2, 2, 4⟩, [], 0⟩ : ClipBuf) [3, 4, 5, 6, 7])).buf = [] ∧
    seqContent (waveClipFlush (waveClipAppend id
      (⟨⟨[⟨[1, 2], 0⟩], 2, 2, 4⟩, [], 0⟩ : ClipBuf) [3, 4, 5, 6, 7])).seq =
      [1, 2, 3, 4, 5, 6, 7] ∧
    (waveClipFlush (waveClipAppend id
      (⟨⟨[⟨[1, 2], 0⟩], 2, 2, 4⟩, [], 0⟩ : ClipBuf)
        [3, 4, 5, 6, 7])).seq.mNumSamples = 7 ∧
    (seqGet (waveClipFlush (waveClipAppend id
      (⟨⟨[⟨[1, 2], 0⟩], 2, 2, 4⟩, [], 0⟩ : ClipBuf) [3, 4, 5, 6, 7])).seq
      0 2).1 = [1, 2] ∧
    (seqGet (waveClipFlush (waveClipAppend id
      (⟨⟨[⟨[1, 2], 0⟩], 2, 2, 4⟩, [], 0⟩ : ClipBuf) [3, 4, 5, 6, 7])).seq
      2 5).1 = [3, 4, 5, 6, 7] := by
  obtain ⟨h1, h2, h3, h4, h5⟩ := clip_append_flush_correct
    (⟨⟨[⟨[1, 2], 0⟩], 2, 2, 4⟩, [], 0⟩ : ClipBuf) id [3, 4, 5, 6, 7]
    ⟨⟨rfl, by norm_num, trivial⟩, by norm_num [seqContent]⟩ rfl (by norm_num)
  refine ⟨h1, ?_, ?_, ?_, ?_⟩
  · rw [h2]
    rfl
  · rw [h3]
    rfl
  · exact h4.trans (by rfl)
  · exact h5.trans (by rfl)

end PyAudacityNR
